import Mathlib

set_option autoImplicit false
set_option linter.unusedSectionVars false
set_option linter.unusedVariables false

/-!
Verification of the fast-cache repository: shallow embedding of the
eviction engines (LRU, FIFO, 2Q, LRU-K, LFU, Clock/Clock-Sweep/WSClock)
and proofs about the frozen claims.  Keys are any type with decidable
equality (Go `comparable`); time.Now() is modelled by a logical clock
passed explicitly; the Go `int` appears as `Int` where sign matters and
as `Nat` where the source keeps the quantity non-negative.
-/

namespace FastCache

variable {K V : Type} [DecidableEq K]

/-! ### Ordered Index (association-list view of the intrusive list)

Modelled from the spec: the `internal` package (the `LruList`/`Entry`
Ordered Index of spec section 4.1) is not among the provided sources; it is
a hash index plus doubly linked ordering with O(1) push-front/push-back,
move-to-front and arbitrary removal.  We represent the ordering as a plain
list of (key, value) pairs, front (most recently pushed) first; the hash
index is implied by key search.  Keys are unique in any state reachable
through the engines. -/

def containsKey (k : K) : List (K × V) → Bool
  | [] => false
  | p :: t => if p.1 = k then true else containsKey k t

def lookupKey (k : K) : List (K × V) → Option V
  | [] => none
  | p :: t => if p.1 = k then some p.2 else lookupKey k t

def eraseKey (k : K) : List (K × V) → List (K × V)
  | [] => []
  | p :: t => if p.1 = k then t else p :: eraseKey k t

/-! ### LRU engine (src/lru/lru.go)

Every mutating operation additionally returns the list of `(key, value)`
pairs that the Go code hands to the eviction callback (the invocations
performed when an `onEvict` callback was installed at construction). -/

structure LRUCache (K V : Type) where
  size : Nat
  list : List (K × V)
  deriving Repr, DecidableEq

def lruNew (size : Nat) : LRUCache K V := ⟨size, []⟩

def lruLen (c : LRUCache K V) : Nat := c.list.length

/-- `LRU.Add`: move-to-front + overwrite for an existing key; push-front and
evict the back (firing the callback) when the new length exceeds `size`. -/
def lruAdd (c : LRUCache K V) (k : K) (v : V) :
    LRUCache K V × Bool × List (K × V) :=
  if containsKey k c.list then
    ({ c with list := (k, v) :: eraseKey k c.list }, false, [])
  else if ((k, v) :: c.list).length > c.size then
    ({ c with list := ((k, v) :: c.list).dropLast }, true,
      ((k, v) :: c.list).getLast?.toList)
  else
    ({ c with list := (k, v) :: c.list }, false, [])

/-- `LRU.AddMany`: returns 0 and performs no mutation when the two sequences
differ in length; otherwise per-element logic identical to `Add`. -/
def lruAddMany (c : LRUCache K V) (keys : List K) (values : List V) :
    LRUCache K V × Nat × List (K × V) :=
  if keys.length ≠ values.length then (c, 0, [])
  else
    (keys.zip values).foldl
      (fun acc p =>
        let (c1, n, evs) := acc
        let (c2, evicted, evs2) := lruAdd c1 p.1 p.2
        (c2, n + (if evicted then 1 else 0), evs ++ evs2))
      (c, 0, [])

/-- `LRU.Get`: hit moves the entry to the front. -/
def lruGet (c : LRUCache K V) (k : K) : LRUCache K V × Option V :=
  match lookupKey k c.list with
  | some v => ({ c with list := (k, v) :: eraseKey k c.list }, some v)
  | none => (c, none)

def lruPeek (c : LRUCache K V) (k : K) : Option V := lookupKey k c.list

def lruContains (c : LRUCache K V) (k : K) : Bool := containsKey k c.list

/-- `LRU.Remove`: a present key is removed through `removeElement`, which
does fire the eviction callback. -/
def lruRemove (c : LRUCache K V) (k : K) :
    LRUCache K V × Bool × List (K × V) :=
  match lookupKey k c.list with
  | some v => ({ c with list := eraseKey k c.list }, true, [(k, v)])
  | none => (c, false, [])

def lruRemoveMany (c : LRUCache K V) (keys : List K) :
    LRUCache K V × Nat × List (K × V) :=
  keys.foldl
    (fun acc k =>
      let (c1, n, evs) := acc
      let (c2, present, evs2) := lruRemove c1 k
      (c2, n + (if present then 1 else 0), evs ++ evs2))
    (c, 0, [])

/-- `LRU.RemoveOldest`: removes the back entry, firing the callback. -/
def lruRemoveOldest (c : LRUCache K V) :
    LRUCache K V × Option (K × V) × List (K × V) :=
  match c.list.getLast? with
  | some p => ({ c with list := c.list.dropLast }, some p, [p])
  | none => (c, none, [])

def lruGetOldest (c : LRUCache K V) : Option (K × V) := c.list.getLast?

/-- `LRU.Keys`: `reverse = true` walks front to back (newest first). -/
def lruKeys (c : LRUCache K V) (reverse : Bool) : List K :=
  if reverse then c.list.map Prod.fst else (c.list.map Prod.fst).reverse

/-- Modelled from the spec: `MoveToFront(key)` is required by the `Cache`
interface and used by the LRU-K engine, but its `LRU` implementation is not
among the provided sources; per spec section 4.1 it moves the key's node to
the front of the ordering (no value change) and reports presence. -/
def lruMoveToFront (c : LRUCache K V) (k : K) : LRUCache K V × Bool :=
  match lookupKey k c.list with
  | some v => ({ c with list := (k, v) :: eraseKey k c.list }, true)
  | none => (c, false)

/-- Iterated `removeOldest`, as performed by `LRU.Resize`. -/
def removeOldestN : Nat → List (K × V) → List (K × V) × List (K × V)
  | 0, l => (l, [])
  | n + 1, l =>
    match l.getLast? with
    | none => (l, [])
    | some p =>
      let (l', evs) := removeOldestN n l.dropLast
      (l', p :: evs)

/-- `LRU.Resize`: a non-positive target reports `Len() - size` together with
an error and mutates nothing; a positive target removes
`max (Len() - size) 0` oldest entries. -/
def lruResize (c : LRUCache K V) (n : Int) :
    LRUCache K V × Int × Bool × List (K × V) :=
  if n ≤ 0 then (c, (c.list.length : Int) - n, true, [])
  else
    let diff : Nat := c.list.length - n.toNat
    let (l', evs) := removeOldestN diff c.list
    (⟨n.toNat, l'⟩, (diff : Int), false, evs)

/-! ### FIFO engine (fifo package, src/unnamed/part_005) -/

structure FIFOCache (K V : Type) where
  size : Nat
  list : List (K × V)
  deriving Repr, DecidableEq

def fifoNew (size : Nat) : FIFOCache K V := ⟨size, []⟩

def fifoLen (c : FIFOCache K V) : Nat := c.list.length

/-- `FIFO.Add`: push-back for a new key, evicting the front (through
`removeElement`, which fires the callback) on overflow. -/
def fifoAdd (c : FIFOCache K V) (k : K) (v : V) :
    FIFOCache K V × Bool × List (K × V) :=
  if containsKey k c.list then
    ({ c with list := (k, v) :: eraseKey k c.list }, false, [])
  else if (c.list ++ [(k, v)]).length > c.size then
    ({ c with list := (c.list ++ [(k, v)]).tail }, true,
      (c.list ++ [(k, v)]).head?.toList)
  else
    ({ c with list := c.list ++ [(k, v)] }, false, [])

/-- `FIFO.Remove`: like `LRU.Remove`, fires the callback on a present key. -/
def fifoRemove (c : FIFOCache K V) (k : K) :
    FIFOCache K V × Bool × List (K × V) :=
  match lookupKey k c.list with
  | some v => ({ c with list := eraseKey k c.list }, true, [(k, v)])
  | none => (c, false, [])

/-- Iterated `removeFront`, as performed by `FIFO.Resize`. -/
def removeFrontN : Nat → List (K × V) → List (K × V) × List (K × V)
  | 0, l => (l, [])
  | n + 1, l =>
    match l with
    | [] => (l, [])
    | p :: t =>
      let (l', evs) := removeFrontN n t
      (l', p :: evs)

/-- `FIFO.Resize`: same contract as `LRU.Resize`, evicting from the front. -/
def fifoResize (c : FIFOCache K V) (n : Int) :
    FIFOCache K V × Int × Bool × List (K × V) :=
  if n ≤ 0 then (c, (c.list.length : Int) - n, true, [])
  else
    let diff : Nat := c.list.length - n.toNat
    let (l', evs) := removeFrontN diff c.list
    (⟨n.toNat, l'⟩, (diff : Int), false, evs)

/-! ### 2Q engine (src/lru/2q.go)

`int(float64(size) * ratio)` is modelled as the exact rational floor (the
ratios of interest, 0.25 and 0.50, are dyadic, where the float computation
is exact). -/

def ratFloorNat (q : ℚ) : Nat := q.floor.toNat

structure TwoQueueCache (K V : Type) where
  size : Nat
  recentSize : Nat
  recentRatio : ℚ
  ghostRatio : ℚ
  recent : LRUCache K V
  frequent : LRUCache K V
  recentEvict : LRUCache K Unit

/-- `New2QParams`: validates size and the two ratios; fails when any
sub-LRU capacity (notably the ghost capacity `⌊size·ghostRatio⌋`) is not
positive, since `NewLRU` rejects non-positive sizes. -/
def q2New (size : Nat) (recentRatio ghostRatio : ℚ) :
    Option (TwoQueueCache K V) :=
  if size = 0 then none
  else if recentRatio < 0 ∨ 1 < recentRatio then none
  else if ghostRatio < 0 ∨ 1 < ghostRatio then none
  else if ratFloorNat ((size : ℚ) * ghostRatio) = 0 then none
  else
    some
      { size := size
        recentSize := ratFloorNat ((size : ℚ) * recentRatio)
        recentRatio := recentRatio
        ghostRatio := ghostRatio
        recent := lruNew size
        frequent := lruNew size
        recentEvict := lruNew (ratFloorNat ((size : ℚ) * ghostRatio)) }

def q2Len (c : TwoQueueCache K V) : Nat :=
  lruLen c.recent + lruLen c.frequent

/-- `TwoQueueCache.ensureSpace`. -/
def q2EnsureSpace (c : TwoQueueCache K V) (recentEvict : Bool) :
    TwoQueueCache K V :=
  if lruLen c.recent + lruLen c.frequent < c.size then c
  else if 0 < lruLen c.recent ∧ (lruLen c.recent > c.recentSize ∨
      (lruLen c.recent = c.recentSize ∧ recentEvict = false)) then
    match lruRemoveOldest c.recent with
    | (r', some p, _) =>
      { c with recent := r', recentEvict := (lruAdd c.recentEvict p.1 ()).1 }
    | (r', none, _) => { c with recent := r' }
  else
    { c with frequent := (lruRemoveOldest c.frequent).1 }

/-- `TwoQueueCache.Add`. -/
def q2Add (c : TwoQueueCache K V) (k : K) (v : V) : TwoQueueCache K V :=
  if lruContains c.frequent k then
    { c with frequent := (lruAdd c.frequent k v).1 }
  else if lruContains c.recent k then
    { c with recent := (lruRemove c.recent k).1,
             frequent := (lruAdd c.frequent k v).1 }
  else if lruContains c.recentEvict k then
    let c1 := q2EnsureSpace c true
    { c1 with recentEvict := (lruRemove c1.recentEvict k).1,
              frequent := (lruAdd c1.frequent k v).1 }
  else
    let c1 := q2EnsureSpace c false
    { c1 with recent := (lruAdd c1.recent k v).1 }

/-- `TwoQueueCache.Get`: a hit that is only in `recent` is read through
`Peek` and promoted into `frequent`. -/
def q2Get (c : TwoQueueCache K V) (k : K) : TwoQueueCache K V × Option V :=
  match lruGet c.frequent k with
  | (f', some v) => ({ c with frequent := f' }, some v)
  | (_, none) =>
    match lruPeek c.recent k with
    | some v =>
      ({ c with recent := (lruRemove c.recent k).1,
                frequent := (lruAdd c.frequent k v).1 }, some v)
    | none => (c, none)

def q2Contains (c : TwoQueueCache K V) (k : K) : Bool :=
  lruContains c.frequent k || lruContains c.recent k

def q2Keys (c : TwoQueueCache K V) (reverse : Bool) : List K :=
  lruKeys c.frequent reverse ++ lruKeys c.recent reverse

/-- `TwoQueueCache.Resize`: non-positive target errors without mutation;
otherwise recompute the sub-sizes, run `ensureSpace(true)` once per excess
entry, then resize the three sub-LRUs. -/
def q2Resize (c : TwoQueueCache K V) (n : Int) :
    TwoQueueCache K V × Int × Bool :=
  if n ≤ 0 then (c, (q2Len c : Int) - n, true)
  else
    let sz := n.toNat
    let c1 := { c with size := sz,
                       recentSize := ratFloorNat ((sz : ℚ) * c.recentRatio) }
    let diff := lruLen c.recent + lruLen c.frequent - sz
    let c2 := (fun st => q2EnsureSpace st true)^[diff] c1
    let c3 :=
      { c2 with
        recent := (lruResize c2.recent (sz : Int)).1
        frequent := (lruResize c2.frequent (sz : Int)).1
        recentEvict :=
          (lruResize c2.recentEvict
            ((ratFloorNat ((sz : ℚ) * c.ghostRatio) : Int))).1 }
    (c3, (diff : Int), false)

/-! ### LRU-K engine (src/unnamed/part_001)

The per-key access counter `cnt` maps keys to `uint8` values; increments
wrap modulo 256. -/

structure LRUKCache (K V : Type) where
  size : Nat
  recentSize : Nat
  k : Nat
  recent : LRUCache K V
  frequent : LRUCache K V
  cnt : List (K × Nat)

/-- `NewLruKParams`. -/
def lrukNew (size : Nat) (recentRatio : ℚ) (k : Nat) :
    Option (LRUKCache K V) :=
  if size = 0 ∨ k = 0 then none
  else if recentRatio < 0 ∨ 1 < recentRatio then none
  else
    some
      { size := size
        recentSize := ratFloorNat ((size : ℚ) * recentRatio)
        k := k
        recent := lruNew size
        frequent := lruNew size
        cnt := [] }

def cntIncr (key : K) (m : List (K × Nat)) : List (K × Nat) :=
  (key, ((lookupKey key m).getD 0 + 1) % 256) :: eraseKey key m

/-- `LRUK.AddFreq`: promote when the access count has reached `k`,
otherwise just refresh the key's position in `recent`. -/
def lrukAddFreq (c : LRUKCache K V) (key : K) (v : V) : LRUKCache K V :=
  if (lookupKey key c.cnt).getD 0 ≥ c.k then
    { c with recent := (lruRemove c.recent key).1,
             frequent := (lruAdd c.frequent key v).1,
             cnt := eraseKey key c.cnt }
  else
    { c with recent := (lruMoveToFront c.recent key).1 }

/-- `LRUK.Get`. -/
def lrukGet (c : LRUKCache K V) (key : K) : LRUKCache K V × Option V :=
  match lruGet c.frequent key with
  | (f', some v) => ({ c with frequent := f' }, some v)
  | (_, none) =>
    match lruPeek c.recent key with
    | some v =>
      (lrukAddFreq { c with cnt := cntIncr key c.cnt } key v, some v)
    | none => (c, none)

/-- `LRUK.Add`: note that no call to `ensureSpace` appears on this path. -/
def lrukAdd (c : LRUKCache K V) (key : K) (v : V) : LRUKCache K V :=
  match lruGet c.frequent key with
  | (f', some _) => { c with frequent := (lruAdd f' key v).1 }
  | (_, none) =>
    let c1 :=
      if lruContains c.recent key then
        { c with recent := (lruMoveToFront c.recent key).1 }
      else
        { c with recent := (lruAdd c.recent key v).1 }
    lrukAddFreq { c1 with cnt := cntIncr key c1.cnt } key v

def lrukLen (c : LRUKCache K V) : Nat :=
  lruLen c.recent + lruLen c.frequent

/-- `LRUK.ensureSpace` (only reachable from `Resize`). -/
def lrukEnsureSpace (c : LRUKCache K V) : LRUKCache K V :=
  if lruLen c.recent + lruLen c.frequent < c.size then c
  else if 0 < lruLen c.recent ∧ (lruLen c.recent > c.recentSize ∨
      lruLen c.recent = c.recentSize) then
    { c with recent := (lruRemoveOldest c.recent).1 }
  else
    { c with frequent := (lruRemoveOldest c.frequent).1 }

/-- `LRUK.Resize`: like 2Q's but with a stale `recentSize` (it is not
recomputed) and no ghost buffer. -/
def lrukResize (c : LRUKCache K V) (n : Int) : LRUKCache K V × Int × Bool :=
  if n ≤ 0 then (c, (lrukLen c : Int) - n, true)
  else
    let sz := n.toNat
    let c1 := { c with size := sz }
    let diff := lruLen c.recent + lruLen c.frequent - sz
    let c2 := lrukEnsureSpace^[diff] c1
    let c3 := { c2 with recent := (lruResize c2.recent (sz : Int)).1,
                        frequent := (lruResize c2.frequent (sz : Int)).1 }
    (c3, (diff : Int), false)

/-! ### Clock family (src/clock/clock.go, ClockSweep in src/main.go part,
WSClock in src/unnamed/part_002)

The `container/ring` ring of `size` slots is a list of optional entries
with a `hand` index advancing modulo `size`; the `items` hash index is
implied by slot search.  `hasCallback` records whether an `onEvict`
callback was supplied at construction.  `time.Now()` is a logical clock
passed explicitly (`now`). -/

structure CEntry (K V : Type) where
  key : K
  val : V
  refCount : Nat
  deriving Repr, DecidableEq

structure ClockCache (K V : Type) where
  size : Nat
  slots : List (Option (CEntry K V))
  hand : Nat
  hasCallback : Bool
  deriving DecidableEq

def clockNew (size : Nat) (hasCallback : Bool) : ClockCache K V :=
  ⟨size, List.replicate size none, 0, hasCallback⟩

def clockFindSlot (slots : List (Option (CEntry K V))) (k : K) : Option Nat :=
  slots.findIdx? fun o =>
    match o with
    | some e => decide (e.key = k)
    | none => false

def clockRefSum (slots : List (Option (CEntry K V))) : Nat :=
  (slots.map fun o =>
    match o with
    | some e => e.refCount
    | none => 0).sum

/-- The GClock scan: while the slot under the hand holds a positive count,
decrement it and advance.  Fuel-indexed; `clockRefSum + 1` fuel always
suffices since every iteration decrements the total count. -/
def clockEvictLoop :
    Nat → List (Option (CEntry K V)) → Nat → Nat →
      List (Option (CEntry K V)) × Nat
  | 0, slots, hand, _ => (slots, hand)
  | fuel + 1, slots, hand, size =>
    match slots.getD hand none with
    | some e =>
      if e.refCount > 0 then
        clockEvictLoop fuel
          (slots.set hand (some { e with refCount := e.refCount - 1 }))
          ((hand + 1) % size) size
      else (slots, hand)
    | none => (slots, hand)

/-- `Clock.evict`. -/
def clockEvict (c : ClockCache K V) : ClockCache K V :=
  match clockEvictLoop (clockRefSum c.slots + 1) c.slots c.hand c.size with
  | (slots, hand) =>
    match slots.getD hand none with
    | some _ => { c with slots := slots.set hand none, hand := hand }
    | none => { c with slots := slots, hand := hand }

/-- `Clock.Add`: an existing key gets its count incremented and its value
replaced; a new key claims the slot found by the eviction scan. -/
def clockAdd (c : ClockCache K V) (k : K) (v : V) : ClockCache K V :=
  match clockFindSlot c.slots k with
  | some i =>
    match c.slots.getD i none with
    | some e =>
      { c with slots :=
          c.slots.set i (some { e with refCount := e.refCount + 1, val := v }) }
    | none => c
  | none =>
    let c1 := clockEvict c
    { c1 with slots := c1.slots.set c1.hand (some ⟨k, v, 1⟩),
              hand := (c1.hand + 1) % c1.size }

/-- `Clock.Get`: a hit increments the reference count. -/
def clockGet (c : ClockCache K V) (k : K) : ClockCache K V × Option V :=
  match clockFindSlot c.slots k with
  | some i =>
    match c.slots.getD i none with
    | some e =>
      ({ c with slots :=
          c.slots.set i (some { e with refCount := e.refCount + 1 }) },
        some e.val)
    | none => (c, none)
  | none => (c, none)

/-- `Clock.Delete`: the slot value is cleared (`e.Value = nil`) and then,
when a callback was supplied, the Go code type-asserts the just-cleared
`e.Value` — a guaranteed nil-interface type-assertion panic, modelled as
`none`. -/
def clockDelete (c : ClockCache K V) (k : K) : Option (ClockCache K V) :=
  match clockFindSlot c.slots k with
  | some i =>
    if c.hasCallback then none
    else some { c with slots := c.slots.set i none }
  | none => some c

def clockLen (c : ClockCache K V) : Nat :=
  (c.slots.filter fun o => o.isSome).length

/-! #### Clock-Sweep -/

structure CSEntry (K V : Type) where
  key : K
  val : V
  refCount : Nat
  useCount : Nat
  deriving Repr, DecidableEq

structure CSCache (K V : Type) where
  size : Nat
  slots : List (Option (CSEntry K V))
  hand : Nat
  hasCallback : Bool
  deriving DecidableEq

def csNew (size : Nat) (hasCallback : Bool) : CSCache K V :=
  ⟨size, List.replicate size none, 0, hasCallback⟩

def csFindSlot (slots : List (Option (CSEntry K V))) (k : K) : Option Nat :=
  slots.findIdx? fun o =>
    match o with
    | some e => decide (e.key = k)
    | none => false

/-- Total of all reference and usage counts: the decrement measure of the
Clock-Sweep eviction scan. -/
def csMeasure (slots : List (Option (CSEntry K V))) : Nat :=
  (slots.map fun o =>
    match o with
    | some e => e.refCount + e.useCount
    | none => 0).sum

/-- `ClockSweep.evict`'s scan, fuel-indexed, also counting the decrement
steps performed.  Returns `none` when the fuel runs out before a victim is
found; `csMeasure + 1` fuel always suffices. -/
def csEvictLoop :
    Nat → List (Option (CSEntry K V)) → Nat → Nat →
      Option (List (Option (CSEntry K V)) × Nat × Nat)
  | 0, _, _, _ => none
  | fuel + 1, slots, hand, size =>
    match slots.getD hand none with
    | some e =>
      if e.refCount = 0 then
        if e.useCount > 0 then
          (csEvictLoop fuel
              (slots.set hand (some { e with useCount := e.useCount - 1 }))
              ((hand + 1) % size) size).map
            fun r => (r.1, r.2.1, r.2.2 + 1)
        else some (slots, hand, 0)
      else
        (csEvictLoop fuel
            (slots.set hand (some { e with refCount := e.refCount - 1 }))
            ((hand + 1) % size) size).map
          fun r => (r.1, r.2.1, r.2.2 + 1)
    | none => some (slots, hand, 0)

/-- `ClockSweep.evict`. -/
def csEvict (c : CSCache K V) : CSCache K V :=
  match csEvictLoop (csMeasure c.slots + 1) c.slots c.hand c.size with
  | some (slots, hand, _) =>
    match slots.getD hand none with
    | some _ => { c with slots := slots.set hand none, hand := hand }
    | none => { c with slots := slots, hand := hand }
  | none => c

/-- The number of count decrements performed by the eviction scan from the
given state. -/
def csEvictSteps (c : CSCache K V) : Nat :=
  match csEvictLoop (csMeasure c.slots + 1) c.slots c.hand c.size with
  | some (_, _, steps) => steps
  | none => 0

/-- `ClockSweep.Add`: an existing key gets its usage count incremented; a
new entry starts with reference count 1, usage count 0. -/
def csAdd (c : CSCache K V) (k : K) (v : V) : CSCache K V :=
  match csFindSlot c.slots k with
  | some i =>
    match c.slots.getD i none with
    | some e =>
      { c with slots :=
          c.slots.set i (some { e with useCount := e.useCount + 1, val := v }) }
    | none => c
  | none =>
    let c1 := csEvict c
    { c1 with slots := c1.slots.set c1.hand (some ⟨k, v, 1, 0⟩),
              hand := (c1.hand + 1) % c1.size }

/-- `ClockSweep.Get`: a hit increments the usage count. -/
def csGet (c : CSCache K V) (k : K) : CSCache K V × Option V :=
  match csFindSlot c.slots k with
  | some i =>
    match c.slots.getD i none with
    | some e =>
      ({ c with slots :=
          c.slots.set i (some { e with useCount := e.useCount + 1 }) },
        some e.val)
    | none => (c, none)
  | none => (c, none)

/-- `ClockSweep.Delete`: same clear-then-assert slip as `Clock.Delete`. -/
def csDelete (c : CSCache K V) (k : K) : Option (CSCache K V) :=
  match csFindSlot c.slots k with
  | some i =>
    if c.hasCallback then none
    else some { c with slots := c.slots.set i none }
  | none => some c

def csLen (c : CSCache K V) : Nat :=
  (c.slots.filter fun o => o.isSome).length

/-! #### WSClock -/

structure WSEntry (K V : Type) where
  key : K
  val : V
  refCount : Nat
  age : Nat
  deriving Repr, DecidableEq

structure WSCache (K V : Type) where
  size : Nat
  slots : List (Option (WSEntry K V))
  hand : Nat
  limit : Nat
  hasCallback : Bool
  deriving DecidableEq

def wsNew (size : Nat) (limit : Nat) (hasCallback : Bool) : WSCache K V :=
  ⟨size, List.replicate size none, 0, limit, hasCallback⟩

def wsFindSlot (slots : List (Option (WSEntry K V))) (k : K) : Option Nat :=
  slots.findIdx? fun o =>
    match o with
    | some e => decide (e.key = k)
    | none => false

def wsRefSum (slots : List (Option (WSEntry K V))) : Nat :=
  (slots.map fun o =>
    match o with
    | some e => e.refCount
    | none => 0).sum

/-- `WSClock.evict`'s scan: `r` is the starting hand position, `flag`
becomes false once the hand is back at (or still at) `r` after a check.  A
slot with a clear flag whose age has not exceeded the window neither breaks
nor advances, so the loop diverges unless the hand is at `r`; `none` models
that divergence (fuel `wsRefSum + 4` covers every terminating run). -/
def wsEvictLoop :
    Nat → List (Option (WSEntry K V)) → Nat → Nat → Nat → Nat → Nat → Bool →
      Option (List (Option (WSEntry K V)) × Nat)
  | 0, _, _, _, _, _, _, _ => none
  | fuel + 1, slots, hand, size, r, lim, now, flag =>
    if flag = false then some (slots, hand)
    else
      match slots.getD hand none with
      | none => some (slots, hand)
      | some e =>
        if e.refCount = 0 then
          if e.age + lim < now then some (slots, hand)
          else
            wsEvictLoop fuel slots hand size r lim now
              (if hand = r then false else flag)
        else
          wsEvictLoop fuel (slots.set hand (some { e with refCount := 0 }))
            ((hand + 1) % size) size r lim now
            (if (hand + 1) % size = r then false else flag)

/-- `WSClock.evict`: `none` when the scan never terminates. -/
def wsEvict (c : WSCache K V) (now : Nat) : Option (WSCache K V) :=
  match wsEvictLoop (wsRefSum c.slots + 4) c.slots c.hand c.size c.hand
      c.limit now true with
  | none => none
  | some (slots, hand) =>
    match slots.getD hand none with
    | some _ => some { c with slots := slots.set hand none, hand := hand }
    | none => some { c with slots := slots, hand := hand }

/-- `WSClock.Add`: an existing key gets its flag reset to 1 and its value
replaced; a new key claims the slot selected by the scan, stamped `now`. -/
def wsAdd (c : WSCache K V) (k : K) (v : V) (now : Nat) :
    Option (WSCache K V) :=
  match wsFindSlot c.slots k with
  | some i =>
    match c.slots.getD i none with
    | some e =>
      some { c with slots :=
              c.slots.set i (some { e with refCount := 1, val := v }) }
    | none => some c
  | none =>
    match wsEvict c now with
    | none => none
    | some c1 =>
      some { c1 with slots := c1.slots.set c1.hand (some ⟨k, v, 1, now⟩),
                     hand := (c1.hand + 1) % c1.size }

/-- `WSClock.Get`: a hit refreshes the timestamp only. -/
def wsGet (c : WSCache K V) (k : K) (now : Nat) : WSCache K V × Option V :=
  match wsFindSlot c.slots k with
  | some i =>
    match c.slots.getD i none with
    | some e =>
      ({ c with slots := c.slots.set i (some { e with age := now }) },
        some e.val)
    | none => (c, none)
  | none => (c, none)

/-- `WSClock.Delete`: same clear-then-assert slip as `Clock.Delete`. -/
def wsDelete (c : WSCache K V) (k : K) : Option (WSCache K V) :=
  match wsFindSlot c.slots k with
  | some i =>
    if c.hasCallback then none
    else some { c with slots := c.slots.set i none }
  | none => some c

def wsLen (c : WSCache K V) : Nat :=
  (c.slots.filter fun o => o.isSome).length

/-! ### LFU engine (lfu package, src/unnamed/part_005, priority queue in
src/2q_test.go part)

The heap slice is a list of entries; the `index` field of `PqEntry` always
equals the entry's slice position (maintained by `Swap`/`Push`), so the
`items` map is modelled by key search and `heap.Fix`/`heap.Remove` receive
the entry's position.  `time.Now()` is a logical clock stored in the cache
and bumped at each stamping. -/

structure PqEntry (K V : Type) where
  key : K
  val : V
  referenceCount : Nat
  referencedAt : Nat
  deriving Repr, DecidableEq

/-- `PriorityQueue.Less`: ascending (referenceCount, referencedAt). -/
def pqLess (a b : PqEntry K V) : Bool :=
  if a.referenceCount = b.referenceCount then
    decide (a.referencedAt < b.referencedAt)
  else decide (a.referenceCount < b.referenceCount)

/-- `PriorityQueue.Swap` (no-op on queues shorter than 2, as in the Go
source). -/
def pqSwap (l : List (PqEntry K V)) (i j : Nat) : List (PqEntry K V) :=
  if l.length < 2 then l
  else
    match l.get? i, l.get? j with
    | some a, some b => (l.set i b).set j a
    | _, _ => l

def pqLessAt (l : List (PqEntry K V)) (a b : Nat) : Bool :=
  match l.get? a, l.get? b with
  | some x, some y => pqLess x y
  | _, _ => false

/-- `container/heap`'s `up` loop.  The fuel only bounds the recursion
depth: each step moves `j` to its parent `(j-1)/2`, so `j + 1` fuel always
reaches the loop's own exit condition first. -/
def pqUpGo : Nat → List (PqEntry K V) → Nat → List (PqEntry K V)
  | 0, l, _ => l
  | fuel + 1, l, j =>
    if (j - 1) / 2 = j then l
    else if pqLessAt l j ((j - 1) / 2) then
      pqUpGo fuel (pqSwap l ((j - 1) / 2) j) ((j - 1) / 2)
    else l

/-- `container/heap`'s `up`. -/
def pqUp (l : List (PqEntry K V)) (j : Nat) : List (PqEntry K V) :=
  pqUpGo (j + 1) l j

/-- The child index chosen by `container/heap`'s `down`: the right child
when it is in range and sorts before the left child, otherwise the left
child. -/
def pqChild (l : List (PqEntry K V)) (i n : Nat) : Nat :=
  if 2 * i + 2 < n ∧ pqLessAt l (2 * i + 2) (2 * i + 1) then 2 * i + 2
  else 2 * i + 1

omit [DecidableEq K] in
theorem pqChild_gt (l : List (PqEntry K V)) (i n : Nat) :
    i < pqChild l i n := by
  unfold pqChild
  split <;> omega

omit [DecidableEq K] in
theorem pqChild_lt (l : List (PqEntry K V)) {i n : Nat}
    (h : ¬ n ≤ 2 * i + 1) : pqChild l i n < n := by
  unfold pqChild
  split
  next hc => omega
  next hc => omega

/-- `container/heap`'s `down` loop; returns the final position of the
sifted element.  The fuel only bounds the recursion depth: each step moves
`i` to a child index `≥ 2i + 1`, so `n + 1` fuel always reaches the
loop's own exit condition (`2i + 1 ≥ n`) first. -/
def pqDownGo : Nat → List (PqEntry K V) → Nat → Nat →
    List (PqEntry K V) × Nat
  | 0, l, i, _ => (l, i)
  | fuel + 1, l, i, n =>
    if n ≤ 2 * i + 1 then (l, i)
    else if pqLessAt l (pqChild l i n) i then
      pqDownGo fuel (pqSwap l i (pqChild l i n)) (pqChild l i n) n
    else (l, i)

/-- `container/heap`'s `down`: also reports whether the element moved. -/
def pqDown (l : List (PqEntry K V)) (i0 n : Nat) :
    List (PqEntry K V) × Bool :=
  match pqDownGo (n + 1) l i0 n with
  | (l', i) => (l', decide (i0 < i))

/-- `heap.Push`. -/
def heapPush (l : List (PqEntry K V)) (e : PqEntry K V) :
    List (PqEntry K V) :=
  pqUp (l ++ [e]) l.length

/-- `heap.Pop`: swap the root to the end, sift down on the shortened
range, pop the last element (the original root). -/
def heapPop (l : List (PqEntry K V)) :
    Option (PqEntry K V) × List (PqEntry K V) :=
  if l.length = 0 then (none, l)
  else
    let l2 := (pqDown (pqSwap l 0 (l.length - 1)) 0 (l.length - 1)).1
    (l2.getLast?, l2.dropLast)

/-- `heap.Fix`. -/
def heapFix (l : List (PqEntry K V)) (i : Nat) : List (PqEntry K V) :=
  match pqDown l i l.length with
  | (l', moved) => if moved then l' else pqUp l' i

/-- `heap.Remove` at position `i`. -/
def heapRemoveAt (l : List (PqEntry K V)) (i : Nat) :
    Option (PqEntry K V) × List (PqEntry K V) :=
  if l.length = 0 then (none, l)
  else if i = l.length - 1 then (l.getLast?, l.dropLast)
  else
    let l1 := pqSwap l i (l.length - 1)
    let l3 := match pqDown l1 i (l.length - 1) with
      | (l2, moved) => if moved then l2 else pqUp l2 i
    (l3.getLast?, l3.dropLast)

def heapFindIdx (l : List (PqEntry K V)) (k : K) : Option Nat :=
  l.findIdx? fun e => decide (e.key = k)

structure LFUCache (K V : Type) where
  size : Nat
  heap : List (PqEntry K V)
  clock : Nat

def lfuNew (size : Nat) : LFUCache K V := ⟨size, [], 0⟩

def lfuLen (c : LFUCache K V) : Nat := c.heap.length

/-- `LFU.Add`: an existing key is updated in place (count + 1, fresh
timestamp, re-heapify); a new key when `Len() == size` first pops the
minimum-priority entry and fires the callback, then pushes a fresh entry
with reference count 1. -/
def lfuAdd (c : LFUCache K V) (k : K) (v : V) :
    LFUCache K V × Bool × List (K × V) :=
  match heapFindIdx c.heap k with
  | some i =>
    match c.heap.get? i with
    | some e =>
      let e' := { e with val := v, referenceCount := e.referenceCount + 1,
                         referencedAt := c.clock }
      ({ c with heap := heapFix (c.heap.set i e') i, clock := c.clock + 1 },
        false, [])
    | none => (c, false, [])
  | none =>
    if c.heap.length = c.size then
      match heapPop c.heap with
      | (popped, rest) =>
        ({ c with heap := heapPush rest ⟨k, v, 1, c.clock⟩,
                  clock := c.clock + 1 },
          true,
          match popped with
          | some e => [(e.key, e.val)]
          | none => [])
    else
      ({ c with heap := heapPush c.heap ⟨k, v, 1, c.clock⟩,
                clock := c.clock + 1 }, false, [])

/-- `LFU.Get`: a hit bumps the count, refreshes the timestamp and
re-heapifies. -/
def lfuGet (c : LFUCache K V) (k : K) : LFUCache K V × Option V :=
  match heapFindIdx c.heap k with
  | some i =>
    match c.heap.get? i with
    | some e =>
      let e' := { e with referenceCount := e.referenceCount + 1,
                         referencedAt := c.clock }
      ({ c with heap := heapFix (c.heap.set i e') i, clock := c.clock + 1 },
        some e.val)
    | none => (c, none)
  | none => (c, none)

/-- `LFU.Remove`: heap-removal at the tracked index, no callback fired. -/
def lfuRemove (c : LFUCache K V) (k : K) :
    LFUCache K V × Bool × List (K × V) :=
  match heapFindIdx c.heap k with
  | some i => ({ c with heap := (heapRemoveAt c.heap i).2 }, true, [])
  | none => (c, false, [])

/-! ### Basic lemmas about the list primitive -/

theorem containsKey_iff_lookupKey (k : K) (l : List (K × V)) :
    containsKey k l = true ↔ (lookupKey k l).isSome := by
  induction l with
  | nil => simp [containsKey, lookupKey]
  | cons p t ih =>
    by_cases h : p.1 = k <;> simp [containsKey, lookupKey, h, ih]

theorem length_eraseKey_of_contains {k : K} {l : List (K × V)}
    (h : containsKey k l = true) :
    (eraseKey k l).length + 1 = l.length := by
  induction l with
  | nil => simp [containsKey] at h
  | cons p t ih =>
    by_cases hp : p.1 = k
    · simp [eraseKey, hp]
    · simp only [containsKey, if_neg hp] at h
      simp [eraseKey, hp, ih h]

theorem length_eraseKey_le (k : K) (l : List (K × V)) :
    (eraseKey k l).length ≤ l.length := by
  induction l with
  | nil => simp [eraseKey]
  | cons p t ih =>
    by_cases hp : p.1 = k
    · simp [eraseKey, hp]
    · simpa [eraseKey, hp] using Nat.succ_le_succ ih

theorem containsKey_eraseKey_self {k : K} {l : List (K × V)}
    (hnd : (l.map Prod.fst).Nodup) :
    containsKey k (eraseKey k l) = false := by
  induction l with
  | nil => simp [eraseKey, containsKey]
  | cons p t ih =>
    simp only [List.map_cons, List.nodup_cons] at hnd
    by_cases hp : p.1 = k
    · subst hp
      simp only [eraseKey, if_pos rfl]
      by_contra hc
      simp only [Bool.not_eq_false] at hc
      have : p.1 ∈ t.map Prod.fst := by
        clear ih hnd
        induction t with
        | nil => simp [containsKey] at hc
        | cons q s ih2 =>
          by_cases hq : q.1 = p.1
          · simp [hq]
          · simp only [containsKey, if_neg hq] at hc
            simpa using Or.inr (ih2 hc)
      exact hnd.1 this
    · simp [eraseKey, hp, containsKey, ih hnd.2]

theorem containsKey_of_lookupKey {k : K} {l : List (K × V)} {v : V}
    (h : lookupKey k l = some v) : containsKey k l = true := by
  rw [containsKey_iff_lookupKey, h]
  rfl

theorem lruLen_lruAdd_le {c : LRUCache K V} (hsz : 1 ≤ c.size)
    (hlen : lruLen c ≤ c.size) (k : K) (v : V) :
    lruLen (lruAdd c k v).1 ≤ c.size := by
  unfold lruAdd lruLen at *
  by_cases hmem : containsKey k c.list = true
  · have := length_eraseKey_of_contains (l := c.list) hmem
    rw [if_pos hmem]
    dsimp only
    simp only [List.length_cons]
    omega
  · rw [if_neg hmem]
    by_cases hover : ((k, v) :: c.list).length > c.size
    · rw [if_pos hover]
      dsimp only
      rw [List.length_dropLast]
      simp only [List.length_cons] at hover ⊢
      omega
    · rw [if_neg hover]
      dsimp only
      simp only [List.length_cons] at hover ⊢
      omega

/-! ### Length lemmas for the LRU operations -/

theorem lruAdd_len_le_succ (c : LRUCache K V) (k : K) (v : V) :
    lruLen (lruAdd c k v).1 ≤ lruLen c + 1 := by
  unfold lruAdd lruLen
  by_cases hmem : containsKey k c.list = true
  · rw [if_pos hmem]
    dsimp only
    have := length_eraseKey_le (V := V) k c.list
    simp only [List.length_cons]
    omega
  · rw [if_neg hmem]
    by_cases hover : ((k, v) :: c.list).length > c.size
    · rw [if_pos hover]
      dsimp only
      rw [List.length_dropLast]
      simp only [List.length_cons]
      omega
    · rw [if_neg hover]
      dsimp only
      simp only [List.length_cons]
      omega

theorem lruAdd_len_of_contains {c : LRUCache K V} {k : K} (v : V)
    (hmem : containsKey k c.list = true) :
    lruLen (lruAdd c k v).1 = lruLen c := by
  unfold lruAdd lruLen
  rw [if_pos hmem]
  dsimp only
  have := length_eraseKey_of_contains (l := c.list) hmem
  simp only [List.length_cons]
  omega

theorem lruAdd_len_of_full {c : LRUCache K V} {k : K} (v : V)
    (hmem : containsKey k c.list = false)
    (hfull : c.size ≤ lruLen c) :
    lruLen (lruAdd c k v).1 = lruLen c := by
  unfold lruAdd lruLen at *
  rw [if_neg (by simp [hmem]), if_pos (by simp only [List.length_cons]; omega)]
  dsimp only
  rw [List.length_dropLast]
  simp only [List.length_cons]
  omega

theorem lruRemoveOldest_len (c : LRUCache K V) :
    lruLen (lruRemoveOldest c).1 = lruLen c - 1 := by
  unfold lruRemoveOldest lruLen
  match hl : c.list.getLast? with
  | none =>
    have : c.list = [] := by
      cases hc : c.list with
      | nil => rfl
      | cons a t =>
        rw [hc] at hl
        exact absurd hl (by simp)
    simp [this]
  | some p =>
    dsimp only
    rw [List.length_dropLast]

theorem lruRemove_len_of_contains {c : LRUCache K V} {k : K}
    (hmem : containsKey k c.list = true) :
    lruLen (lruRemove c k).1 + 1 = lruLen c := by
  unfold lruRemove lruLen
  rw [containsKey_iff_lookupKey] at hmem
  match hl : lookupKey k c.list with
  | some v =>
    dsimp only
    exact length_eraseKey_of_contains
      (containsKey_of_lookupKey hl)
  | none => rw [hl] at hmem; cases hmem

theorem lruRemove_len_le (c : LRUCache K V) (k : K) :
    lruLen (lruRemove c k).1 ≤ lruLen c := by
  unfold lruRemove lruLen
  match hl : lookupKey k c.list with
  | some v =>
    dsimp only
    exact length_eraseKey_le k c.list
  | none => exact Nat.le_refl _

theorem lruMoveToFront_len (c : LRUCache K V) (k : K) :
    lruLen (lruMoveToFront c k).1 = lruLen c := by
  unfold lruMoveToFront lruLen
  match hl : lookupKey k c.list with
  | some v =>
    dsimp only
    have := length_eraseKey_of_contains (containsKey_of_lookupKey hl)
    simp only [List.length_cons]
    omega
  | none => rfl

theorem lruAdd_size (c : LRUCache K V) (k : K) (v : V) :
    (lruAdd c k v).1.size = c.size := by
  unfold lruAdd
  by_cases hmem : containsKey k c.list = true
  · rw [if_pos hmem]
  · rw [if_neg hmem]
    by_cases hover : ((k, v) :: c.list).length > c.size
    · rw [if_pos hover]
    · rw [if_neg hover]

/-! ### Claim C5: the LRU worked example -/

/-- The size-5 LRU after inserting keys 1..5 (value = key). -/
def c5AfterAdds : LRUCache Nat Nat :=
  (lruAdd (lruAdd (lruAdd (lruAdd (lruAdd (lruNew 5) 1 1).1
    2 2).1 3 3).1 4 4).1 5 5).1

/-- The same cache after `Get(3)` and then `Add(6, 60)`. -/
def c5Final : LRUCache Nat Nat :=
  (lruAdd (lruGet c5AfterAdds 3).1 6 60).1

/-- Claim C5 as stated is false on the code: after inserting 1..5 into a
size-5 LRU, `Get(3)` and `Add(6, 60)`, the newest-first key order is
`[6,3,5,4,2]`, not `[6,3,5,4]`, and key 2 is still resident (it was not
evicted). -/
theorem c5_keys_counterexample :
    lruKeys c5Final true ≠ [6, 3, 5, 4] ∧ lruContains c5Final 2 = true := by
  decide

/-- Claim C5 amended: the sequence evicts key 1 (the least recently
touched — the single eviction event of the final `Add` carries key 1) and
leaves the newest-first key order `[6,3,5,4,2]`. -/
theorem c5_lru_order :
    lruKeys c5Final true = [6, 3, 5, 4, 2] ∧
    lruContains c5Final 1 = false ∧
    (lruAdd (lruGet c5AfterAdds 3).1 6 60).2.1 = true ∧
    (lruAdd (lruGet c5AfterAdds 3).1 6 60).2.2 = [(1, 1)] := by
  decide

/-! ### Claim C6: AddMany length mismatch -/

/-- Claim C6's "fails with a length-mismatch signal" is false on the code:
`AddMany`'s only output is the evicted count, and on a length mismatch it
returns exactly what a legitimate, mutation-free successful call returns —
`(unchanged cache, 0, no callback events)` — so the caller receives no
signal distinguishing the mismatch from a successful call. -/
theorem c6_no_mismatch_signal :
    lruAddMany (lruNew 3 : LRUCache Nat Nat) [1, 2] [10]
      = (lruNew 3, 0, []) ∧
    lruAddMany (lruNew 3 : LRUCache Nat Nat) [] []
      = (lruNew 3, 0, []) := by
  decide

/-- Claim C6 amended: `AddMany` with key and value sequences of differing
lengths performs no mutation and returns an eviction count of 0 with no
callback invocations; the method has no error output, so no
length-mismatch signal reaches the caller. -/
theorem c6_addMany_mismatch_no_mutation (c : LRUCache K V)
    (keys : List K) (values : List V)
    (h : keys.length ≠ values.length) :
    lruAddMany c keys values = (c, 0, []) := by
  unfold lruAddMany
  rw [if_pos h]

/-- Witness for `c6_addMany_mismatch_no_mutation` at a concrete input. -/
theorem c6_addMany_mismatch_witness :
    ([1, 2] : List Nat).length ≠ ([10] : List Nat).length ∧
    lruAddMany (lruNew 3 : LRUCache Nat Nat) [1, 2] [10]
      = (lruNew 3, 0, []) :=
  ⟨by decide, c6_addMany_mismatch_no_mutation (lruNew 3) [1, 2] [10]
    (by decide)⟩

/-! ### Claim C3: which removals invoke the eviction callback -/

/-- Claim C3 as stated is false on the code: an explicit `LRU.Remove` of a
present key goes through `removeElement`, which does invoke the installed
eviction callback — here removing key 1 from a size-2 LRU holding (1,10)
produces the callback invocation list `[(1,10)]`. -/
theorem c3_remove_fires_callback :
    (lruRemove (lruAdd (lruNew 2 : LRUCache Nat Nat) 1 10).1 1).2.2
      = [(1, 10)] ∧
    (lruRemove (lruAdd (lruNew 2 : LRUCache Nat Nat) 1 10).1 1).2.2 ≠ [] := by
  decide

/-! ### Claim C2: clock-family Delete -/

/-- Claim C2's evaluation on the code: for each clock variant, `Delete` of
a present key with no callback installed removes the key and clears the
slot without advancing the hand; but with a callback installed the same
call panics (it clears `e.Value` to nil and then type-asserts it to build
the callback arguments), modelled by `none`.  States are reached through
`Add` on a freshly constructed cache. -/
theorem c2_delete_behaviour :
    clockDelete (clockAdd (clockNew 1 false) 7 42) 7
      = some ⟨1, [none], 0 + 1 % 1, false⟩ ∧
    (clockAdd (clockNew 1 false) 7 42).hand
      = (clockDelete (clockAdd (clockNew 1 false) 7 42) 7).map
          ClockCache.hand ∧
    clockDelete (clockAdd (clockNew 1 true) 7 42) 7 = none ∧
    csDelete (csAdd (csNew 1 false) 7 42) 7
      = some ⟨1, [none], 1 % 1, false⟩ ∧
    csDelete (csAdd (csNew 1 true) 7 42) 7 = none ∧
    wsDelete ((wsAdd (wsNew 1 5 false) 7 42 0).getD (wsNew 1 5 false)) 7
      = some ⟨1, [none], 1 % 1, 5, false⟩ ∧
    wsDelete ((wsAdd (wsNew 1 5 true) 7 42 0).getD (wsNew 1 5 true)) 7
      = none := by
  decide

/-! ### Claim C1: the capacity invariant under Add sequences -/

/-- Folding a sequence of `Add` calls over an LRU cache. -/
def lruAddSeq (c : LRUCache K V) (ops : List (K × V)) : LRUCache K V :=
  ops.foldl (fun c p => (lruAdd c p.1 p.2).1) c

theorem lruAddSeq_len_le {c : LRUCache K V} (hsz : 1 ≤ c.size)
    (hlen : lruLen c ≤ c.size) (ops : List (K × V)) :
    lruLen (lruAddSeq c ops) ≤ (lruAddSeq c ops).size ∧
    (lruAddSeq c ops).size = c.size := by
  induction ops generalizing c with
  | nil => exact ⟨hlen, rfl⟩
  | cons p t ih =>
    have h1 := lruLen_lruAdd_le hsz hlen p.1 p.2
    have h2 := lruAdd_size c p.1 p.2
    have h3 := ih (c := (lruAdd c p.1 p.2).1) (by omega) (by omega)
    unfold lruAddSeq at *
    simp only [List.foldl_cons]
    exact ⟨h3.1, by rw [h3.2, h2]⟩

/-- 2Q `ensureSpace` frees exactly one resident entry whenever the cache
is at or over capacity and `recentSize < size`. -/
theorem q2EnsureSpace_len {c : TwoQueueCache K V} (b : Bool)
    (hrs : c.recentSize < c.size) (hfull : c.size ≤ q2Len c) :
    q2Len (q2EnsureSpace c b) + 1 = q2Len c := by
  unfold q2EnsureSpace
  rw [if_neg (by unfold q2Len at hfull; omega)]
  by_cases hcond : 0 < lruLen c.recent ∧ (lruLen c.recent > c.recentSize ∨
      (lruLen c.recent = c.recentSize ∧ b = false))
  · rw [if_pos hcond]
    have hro := lruRemoveOldest_len c.recent
    match hx : lruRemoveOldest c.recent with
    | (r', some p, evs) =>
      dsimp only
      unfold q2Len
      dsimp only
      rw [hx] at hro
      dsimp only [lruLen] at hro hcond ⊢
      omega
    | (r', none, evs) =>
      exfalso
      unfold lruRemoveOldest at hx
      match hgl : c.recent.list.getLast? with
      | some q => rw [hgl] at hx; cases hx
      | none =>
        have : c.recent.list = [] := by
          cases hc : c.recent.list with
          | nil => rfl
          | cons a t =>
            rw [hc] at hgl
            exact absurd hgl (by simp)
        have h0 := hcond.1
        simp [lruLen, this] at h0
  · rw [if_neg hcond]
    have hfreq : 0 < lruLen c.frequent := by
      by_contra hz
      push_neg at hz
      have hf0 : lruLen c.frequent = 0 := by omega
      have hr : c.size ≤ lruLen c.recent := by
        unfold q2Len at hfull
        omega
      exact hcond ⟨by omega, Or.inl (by omega)⟩
    have hro := lruRemoveOldest_len c.frequent
    unfold q2Len
    dsimp only
    omega

/-- 2Q `Add` preserves `Len() ≤ size` (the invariant needs
`recentSize < size`; the default recent ratio 0.25 guarantees it). -/
theorem q2Add_len_le {c : TwoQueueCache K V} (k : K) (v : V)
    (hrs : c.recentSize < c.size) (hlen : q2Len c ≤ c.size) :
    q2Len (q2Add c k v) ≤ c.size := by
  unfold q2Add
  by_cases hfm : lruContains c.frequent k = true
  · rw [if_pos hfm]
    have := lruAdd_len_of_contains (c := c.frequent) (k := k) v hfm
    unfold q2Len at *
    dsimp only
    omega
  · rw [if_neg hfm]
    by_cases hrm : lruContains c.recent k = true
    · rw [if_pos hrm]
      have h1 := lruRemove_len_of_contains (c := c.recent) (k := k) hrm
      have h2 := lruAdd_len_le_succ c.frequent k v
      unfold q2Len at *
      dsimp only
      omega
    · rw [if_neg hrm]
      by_cases hgm : lruContains c.recentEvict k = true
      · rw [if_pos hgm]
        by_cases hfull : c.size ≤ q2Len c
        · have h1 := q2EnsureSpace_len (c := c) true hrs hfull
          have h2 := lruAdd_len_le_succ (q2EnsureSpace c true).frequent k v
          have h3 := lruRemove_len_le (q2EnsureSpace c true).recentEvict k
          unfold q2Len at *
          dsimp only
          omega
        · push_neg at hfull
          have hid : q2EnsureSpace c true = c := by
            unfold q2EnsureSpace
            rw [if_pos (by unfold q2Len at hfull; omega)]
          rw [hid]
          have h2 := lruAdd_len_le_succ c.frequent k v
          unfold q2Len at *
          dsimp only
          omega
      · rw [if_neg hgm]
        by_cases hfull : c.size ≤ q2Len c
        · have h1 := q2EnsureSpace_len (c := c) false hrs hfull
          have h2 := lruAdd_len_le_succ (q2EnsureSpace c false).recent k v
          unfold q2Len at *
          dsimp only
          omega
        · push_neg at hfull
          have hid : q2EnsureSpace c false = c := by
            unfold q2EnsureSpace
            rw [if_pos (by unfold q2Len at hfull; omega)]
          rw [hid]
          have h2 := lruAdd_len_le_succ c.recent k v
          unfold q2Len at *
          dsimp only
          omega

/-- LRU-K `AddFreq` never lengthens `recent` and lengthens `frequent` by
at most one while respecting `frequent`'s own bound. -/
theorem lrukAddFreq_len {c : LRUKCache K V} (key : K) (v : V)
    (hs : 1 ≤ c.frequent.size)
    (hr : lruLen c.recent ≤ c.recent.size)
    (hf : lruLen c.frequent ≤ c.frequent.size) :
    lruLen (lrukAddFreq c key v).recent ≤ c.recent.size ∧
    lruLen (lrukAddFreq c key v).frequent ≤ c.frequent.size := by
  unfold lrukAddFreq
  by_cases hth : (lookupKey key c.cnt).getD 0 ≥ c.k
  · rw [if_pos hth]
    dsimp only
    constructor
    · have := lruRemove_len_le c.recent key
      omega
    · exact lruLen_lruAdd_le hs hf key v
  · rw [if_neg hth]
    dsimp only
    constructor
    · rw [lruMoveToFront_len]
      exact hr
    · exact hf

theorem lruGet_len (c : LRUCache K V) (k : K) :
    lruLen (lruGet c k).1 = lruLen c := by
  unfold lruGet lruLen
  match hl : lookupKey k c.list with
  | some v =>
    dsimp only
    have := length_eraseKey_of_contains (containsKey_of_lookupKey hl)
    simp only [List.length_cons]
    omega
  | none => rfl

theorem lruGet_size (c : LRUCache K V) (k : K) :
    (lruGet c k).1.size = c.size := by
  unfold lruGet
  match hl : lookupKey k c.list with
  | some v => rfl
  | none => rfl

theorem lruGet_hit_contains {c : LRUCache K V} {k : K} {v : V}
    (h : (lruGet c k).2 = some v) :
    containsKey k (lruGet c k).1.list = true := by
  unfold lruGet at h ⊢
  cases hl : lookupKey k c.list with
  | some v0 =>
    show containsKey k ((k, v0) :: eraseKey k c.list) = true
    simp [containsKey]
  | none =>
    rw [hl] at h
    exact Option.noConfusion h

theorem lruMoveToFront_size (c : LRUCache K V) (k : K) :
    (lruMoveToFront c k).1.size = c.size := by
  unfold lruMoveToFront
  match hl : lookupKey k c.list with
  | some v => rfl
  | none => rfl

/-- LRU-K `Add` never calls `ensureSpace`: it only preserves the bounds of
the two sub-LRUs separately, so the combined length is only bounded by
`2 · size`. -/
theorem lrukAdd_len_le {c : LRUKCache K V} (key : K) (v : V)
    (hrsz : 1 ≤ c.recent.size) (hfsz : 1 ≤ c.frequent.size)
    (hr : lruLen c.recent ≤ c.recent.size)
    (hf : lruLen c.frequent ≤ c.frequent.size) :
    lruLen (lrukAdd c key v).recent ≤ c.recent.size ∧
    lruLen (lrukAdd c key v).frequent ≤ c.frequent.size := by
  unfold lrukAdd
  match hg : lruGet c.frequent key with
  | (f', some v0) =>
    dsimp only
    have hf1 : (lruGet c.frequent key).1 = f' := by rw [hg]
    have hcont : containsKey key f'.list = true := by
      rw [← hf1]
      exact lruGet_hit_contains (by rw [hg])
    have hlen : lruLen f' = lruLen c.frequent := by
      rw [← hf1, lruGet_len]
    have hsize : f'.size = c.frequent.size := by
      rw [← hf1, lruGet_size]
    have := lruAdd_len_of_contains (c := f') (k := key) v hcont
    exact ⟨hr, by omega⟩
  | (f', none) =>
    dsimp only
    by_cases hrc : lruContains c.recent key = true
    · rw [if_pos hrc]
      have hmv := lruMoveToFront_len c.recent key
      have hmvs := lruMoveToFront_size c.recent key
      have h4 := lrukAddFreq_len
        (c := { c with recent := (lruMoveToFront c.recent key).1,
                       cnt := cntIncr key c.cnt }) key v
        (by dsimp only; omega) (by dsimp only; omega)
        (by dsimp only; omega)
      dsimp only at h4
      rw [hmvs] at h4
      exact h4
    · rw [if_neg hrc]
      have hadd := lruLen_lruAdd_le hrsz hr key v
      have hadds := lruAdd_size c.recent key v
      have h4 := lrukAddFreq_len
        (c := { c with recent := (lruAdd c.recent key v).1,
                       cnt := cntIncr key c.cnt }) key v
        (by dsimp only; omega) (by dsimp only; rw [hadds]; omega)
        (by dsimp only; omega)
      dsimp only at h4
      rw [hadds] at h4
      exact h4

/-! ### Claim C1 -/

/-- Claim C1 as stated is false on the code: on a freshly constructed
LRU-K cache of capacity 2 (`k` = 2, default recent ratio 0.25), after the
`Add` calls 1,1,2,2,3 (keys 1 and 2 promoted into `frequent`, 3 left in
`recent`) the cache reports `Len() = 3 > 2` — `LRUK.Add` never invokes
`ensureSpace`. -/
theorem c1_lruk_exceeds_size :
    ∃ c0 : LRUKCache Nat Nat,
      lrukNew 2 (1 / 4 : ℚ) 2 = some c0 ∧ c0.size = 2 ∧
      lrukLen ([(1, 1), (1, 1), (2, 2), (2, 2), (3, 3)].foldl
        (fun c p => lrukAdd c p.1 p.2) c0) = 3 := by
  refine ⟨⟨2, ratFloorNat ((2 : ℚ) * (1 / 4)), 2, lruNew 2, lruNew 2, []⟩,
    ?_, rfl, ?_⟩
  · unfold lrukNew
    rw [if_neg (by norm_num), if_neg (by norm_num)]
    rfl
  · rfl

/-! ### Claim C4: Clock-Sweep eviction scan -/

theorem csMeasure_set {slots : List (Option (CSEntry K V))} {i : Nat}
    {e : CSEntry K V} (h : slots.getD i none = some e) (e' : CSEntry K V) :
    csMeasure (slots.set i (some e')) + e.refCount + e.useCount
      = csMeasure slots + e'.refCount + e'.useCount := by
  induction slots generalizing i with
  | nil => simp [List.getD] at h
  | cons o t ih =>
    cases i with
    | zero =>
      simp only [List.getD_cons_zero] at h
      subst h
      simp only [List.set_cons_zero, csMeasure, List.map_cons, List.sum_cons]
      omega
    | succ n =>
      simp only [List.getD_cons_succ] at h
      have h2 := ih h
      simp only [List.set_cons_succ, csMeasure, List.map_cons,
        List.sum_cons] at h2 ⊢
      omega

/-- Claim C4 amended: for every state of the ring (reachable or not) the
Clock-Sweep eviction scan terminates, and the number of decrement steps it
performs is bounded by the total of all reference and usage counts
(`csMeasure`), not by `2·size`: usage counts are unbounded, so the claimed
`2·size` bound fails (see the counterexample). -/
theorem c4_cs_scan_terminates (fuel : Nat) (slots : List (Option (CSEntry K V)))
    (hand size : Nat) (hfuel : csMeasure slots < fuel) :
    ∃ out, csEvictLoop fuel slots hand size = some out ∧
      out.2.2 ≤ csMeasure slots := by
  induction fuel generalizing slots hand with
  | zero => omega
  | succ f ih =>
    unfold csEvictLoop
    match hslot : slots.getD hand none with
    | none => exact ⟨(slots, hand, 0), rfl, Nat.zero_le _⟩
    | some e =>
      dsimp only
      by_cases href : e.refCount = 0
      · rw [if_pos href]
        by_cases huse : e.useCount > 0
        · rw [if_pos huse]
          have hm := csMeasure_set hslot { e with useCount := e.useCount - 1 }
          dsimp only at hm
          obtain ⟨out, hout, hsteps⟩ := ih
            (slots.set hand (some { e with useCount := e.useCount - 1 }))
            ((hand + 1) % size) (by omega)
          rw [hout]
          refine ⟨(out.1, out.2.1, out.2.2 + 1), rfl, ?_⟩
          dsimp only
          omega
        · rw [if_neg huse]
          exact ⟨(slots, hand, 0), rfl, Nat.zero_le _⟩
      · rw [if_neg href]
        have hm := csMeasure_set hslot { e with refCount := e.refCount - 1 }
        dsimp only at hm
        obtain ⟨out, hout, hsteps⟩ := ih
          (slots.set hand (some { e with refCount := e.refCount - 1 }))
          ((hand + 1) % size) (by omega)
        rw [hout]
        refine ⟨(out.1, out.2.1, out.2.2 + 1), rfl, ?_⟩
        dsimp only
        omega

/-- A reachable Clock-Sweep state of size 2: `Add 1, Add 2`, then two
`Get`s on each key, leaving both slots with reference count 1 and usage
count 2. -/
def c4State : CSCache Nat Nat :=
  (csGet (csGet (csGet (csGet (csAdd (csAdd (csNew 2 false) 1 1) 2 2)
    1).1 1).1 2).1 2).1

/-- Claim C4's `2·size` bound is false on the code: in the reachable
size-2 state `c4State` the scan triggered by `Add` of the fresh key 3
performs 6 decrement steps, exceeding `2·size = 4`. -/
theorem c4_scan_exceeds_two_size :
    csEvictSteps c4State = 6 ∧ c4State.size = 2 ∧
    csFindSlot c4State.slots 3 = none ∧
    ¬ csEvictSteps c4State ≤ 2 * c4State.size := by
  decide

/-- Witness for `c4_cs_scan_terminates` at the concrete state `c4State`. -/
theorem c4_cs_scan_terminates_witness :
    csMeasure c4State.slots < csMeasure c4State.slots + 1 ∧
    ∃ out, csEvictLoop (csMeasure c4State.slots + 1) c4State.slots
        c4State.hand c4State.size = some out ∧
      out.2.2 ≤ csMeasure c4State.slots :=
  ⟨Nat.lt_succ_self _,
    c4_cs_scan_terminates (csMeasure c4State.slots + 1) c4State.slots
      c4State.hand c4State.size (Nat.lt_succ_self _)⟩

/-! ### Claim C10: WSClock evicts a non-aged starting slot -/

theorem wsEvictLoop_start_unaged (fuel : Nat)
    (slots : List (Option (WSEntry K V))) (hand size lim now : Nat)
    (e : WSEntry K V) (hslot : slots.getD hand none = some e)
    (href : e.refCount = 0) (hage : ¬ e.age + lim < now) (hfuel : 2 ≤ fuel) :
    wsEvictLoop fuel slots hand size hand lim now true = some (slots, hand) := by
  obtain ⟨f, rfl⟩ : ∃ f, fuel = f + 2 := ⟨fuel - 2, by omega⟩
  unfold wsEvictLoop
  rw [if_neg (by simp)]
  rw [hslot]
  dsimp only
  rw [if_pos href, if_neg hage, if_pos rfl]
  unfold wsEvictLoop
  rw [if_pos rfl]

/-- Claim C10: if the eviction scan starts at a slot whose reference flag
is already 0 and whose age has not yet exceeded the window, the very first
check ends the scan there (the `hand == r` test clears the loop flag), so
the starting slot is evicted despite failing the aging test, and an `Add`
of a fresh key installs the new entry in that slot. -/
theorem c10_unaged_start_slot_evicted (c : WSCache K V) (k : K) (v : V)
    (now : Nat) (e : WSEntry K V)
    (hslot : c.slots.getD c.hand none = some e)
    (href : e.refCount = 0)
    (hage : now ≤ e.age + c.limit)
    (hfresh : wsFindSlot c.slots k = none) :
    wsEvict c now = some { c with slots := c.slots.set c.hand none } ∧
    wsAdd c k v now =
      some { c with slots := c.slots.set c.hand (some ⟨k, v, 1, now⟩),
                    hand := (c.hand + 1) % c.size } := by
  have hev : wsEvict c now
      = some { c with slots := c.slots.set c.hand none } := by
    unfold wsEvict
    rw [wsEvictLoop_start_unaged _ _ _ _ _ _ e hslot href (by omega)
      (by omega)]
    dsimp only
    rw [hslot]
  refine ⟨hev, ?_⟩
  unfold wsAdd
  rw [hfresh, hev]
  dsimp only
  rw [List.set_set]

/-- Witness for `c10_unaged_start_slot_evicted`: size-2 ring, hand on a
flag-0 slot aged 10 with window 5, at time 12 (10 + 5 is not in the
past). -/
theorem c10_unaged_start_slot_evicted_witness :
    wsEvict (⟨2, [some ⟨5, 50, 0, 10⟩, some ⟨6, 60, 1, 0⟩], 0, 5, false⟩ :
      WSCache Nat Nat) 12
      = some ⟨2, [none, some ⟨6, 60, 1, 0⟩], 0, 5, false⟩ ∧
    wsAdd (⟨2, [some ⟨5, 50, 0, 10⟩, some ⟨6, 60, 1, 0⟩], 0, 5, false⟩ :
      WSCache Nat Nat) 7 70 12
      = some ⟨2, [some ⟨7, 70, 1, 12⟩, some ⟨6, 60, 1, 0⟩], 1 % 2, 5, false⟩ :=
  c10_unaged_start_slot_evicted
    (⟨2, [some ⟨5, 50, 0, 10⟩, some ⟨6, 60, 1, 0⟩], 0, 5, false⟩ :
      WSCache Nat Nat) 7 70 12 ⟨5, 50, 0, 10⟩ (by decide) (by decide)
    (by decide) (by decide)

/-! ### Claim C8: 2Q promotion paths -/

theorem containsKey_dropLast_false {k : K} {l : List (K × V)}
    (h : containsKey k l = false) : containsKey k l.dropLast = false := by
  induction l with
  | nil => simp [containsKey]
  | cons p t ih =>
    by_cases hp : p.1 = k
    · simp [containsKey, hp] at h
    · simp only [containsKey, if_neg hp] at h
      cases t with
      | nil => simp [containsKey]
      | cons q s =>
        simp only [List.dropLast_cons₂, containsKey, if_neg hp]
        exact ih h

theorem containsKey_lruAdd_self {c : LRUCache K V} (k : K) (v : V)
    (hsz : 1 ≤ c.size) : containsKey k (lruAdd c k v).1.list = true := by
  unfold lruAdd
  by_cases hmem : containsKey k c.list = true
  · rw [if_pos hmem]
    simp [containsKey]
  · rw [if_neg hmem]
    by_cases hover : ((k, v) :: c.list).length > c.size
    · rw [if_pos hover]
      dsimp only
      cases hl : c.list with
      | nil =>
        rw [hl] at hover
        simp at hover
        omega
      | cons a t =>
        rw [List.dropLast_cons₂]
        simp [containsKey]
    · rw [if_neg hover]
      simp [containsKey]

theorem containsKey_lruRemove_self {c : LRUCache K V} (k : K)
    (hnd : (c.list.map Prod.fst).Nodup) :
    containsKey k (lruRemove c k).1.list = false := by
  unfold lruRemove
  cases hl : lookupKey k c.list with
  | some v =>
    dsimp only
    exact containsKey_eraseKey_self hnd
  | none =>
    dsimp only
    rw [← Bool.not_eq_true, containsKey_iff_lookupKey, hl]
    simp

theorem q2EnsureSpace_recent_not_contains {c : TwoQueueCache K V} {k : K}
    (b : Bool) (h : containsKey k c.recent.list = false) :
    containsKey k (q2EnsureSpace c b).recent.list = false := by
  unfold q2EnsureSpace
  by_cases h1 : lruLen c.recent + lruLen c.frequent < c.size
  · rw [if_pos h1]; exact h
  · rw [if_neg h1]
    by_cases h2 : 0 < lruLen c.recent ∧ (lruLen c.recent > c.recentSize ∨
        (lruLen c.recent = c.recentSize ∧ b = false))
    · rw [if_pos h2]
      match hx : lruRemoveOldest c.recent with
      | (r', some p, evs) =>
        dsimp only
        unfold lruRemoveOldest at hx
        cases hgl : c.recent.list.getLast? with
        | some q =>
          rw [hgl] at hx
          dsimp only at hx
          have hr : r' = { c.recent with list := c.recent.list.dropLast } := by
            have := congrArg Prod.fst hx
            dsimp at this
            exact this.symm
          rw [hr]
          exact containsKey_dropLast_false h
        | none =>
          rw [hgl] at hx
          dsimp only at hx
          have hr : r' = c.recent := by
            have := congrArg Prod.fst hx
            dsimp at this
            exact this.symm
          rw [hr]
          exact h
      | (r', none, evs) =>
        dsimp only
        unfold lruRemoveOldest at hx
        cases hgl : c.recent.list.getLast? with
        | some q =>
          rw [hgl] at hx
          dsimp only at hx
          exact absurd (congrArg (fun x => x.2.1) hx) (by simp)
        | none =>
          rw [hgl] at hx
          dsimp only at hx
          have hr : r' = c.recent := by
            have := congrArg Prod.fst hx
            dsimp at this
            exact this.symm
          rw [hr]
          exact h
    · rw [if_neg h2]
      exact h

theorem q2EnsureSpace_frequent_size (c : TwoQueueCache K V) (b : Bool) :
    (q2EnsureSpace c b).frequent.size = c.frequent.size := by
  unfold q2EnsureSpace
  by_cases h1 : lruLen c.recent + lruLen c.frequent < c.size
  · rw [if_pos h1]
  · rw [if_neg h1]
    by_cases h2 : 0 < lruLen c.recent ∧ (lruLen c.recent > c.recentSize ∨
        (lruLen c.recent = c.recentSize ∧ b = false))
    · rw [if_pos h2]
      match hx : lruRemoveOldest c.recent with
      | (r', some p, evs) => rfl
      | (r', none, evs) => rfl
    · rw [if_neg h2]
      dsimp only
      unfold lruRemoveOldest
      cases c.frequent.list.getLast? with
      | some q => rfl
      | none => rfl

/-- Claim C8: in the 2Q engine, (1) an `Add` of a key resident in `recent`
(and not in `frequent`) moves it into `frequent` and out of `recent`;
(2) so does a `Get` of a key resident only in `recent`; (3) an `Add` of a
key resident in the ghost set (and in neither queue) lands directly in
`frequent`, not `recent`. -/
theorem c8_2q_promotion (c : TwoQueueCache K V) (k1 k2 k3 : K)
    (v1 v3 : V) (v2 : V)
    (hfs : 1 ≤ c.frequent.size)
    (hnd : (c.recent.list.map Prod.fst).Nodup)
    (h1r : lruContains c.recent k1 = true)
    (h1f : lruContains c.frequent k1 = false)
    (h2f : lookupKey k2 c.frequent.list = none)
    (h2r : lookupKey k2 c.recent.list = some v2)
    (h3f : lruContains c.frequent k3 = false)
    (h3r : lruContains c.recent k3 = false)
    (h3g : lruContains c.recentEvict k3 = true) :
    (lruContains (q2Add c k1 v1).frequent k1 = true ∧
      lruContains (q2Add c k1 v1).recent k1 = false) ∧
    (lruContains (q2Get c k2).1.frequent k2 = true ∧
      lruContains (q2Get c k2).1.recent k2 = false) ∧
    (lruContains (q2Add c k3 v3).frequent k3 = true ∧
      lruContains (q2Add c k3 v3).recent k3 = false) := by
  refine ⟨?_, ?_, ?_⟩
  · unfold q2Add
    rw [if_neg (by simp [h1f]), if_pos h1r]
    dsimp only
    exact ⟨containsKey_lruAdd_self k1 v1 hfs,
      containsKey_lruRemove_self k1 hnd⟩
  · unfold q2Get
    have hg : lruGet c.frequent k2 = (c.frequent, none) := by
      unfold lruGet
      rw [h2f]
    rw [hg]
    dsimp only
    unfold lruPeek
    rw [h2r]
    dsimp only
    have hnd2 : (c.recent.list.map Prod.fst).Nodup := hnd
    exact ⟨containsKey_lruAdd_self k2 v2 hfs,
      containsKey_lruRemove_self k2 hnd2⟩
  · unfold q2Add
    rw [if_neg (by simp [h3f]), if_neg (by simp [h3r]), if_pos h3g]
    dsimp only
    constructor
    · exact containsKey_lruAdd_self k3 v3
        (by rw [q2EnsureSpace_frequent_size]; exact hfs)
    · exact q2EnsureSpace_recent_not_contains true h3r

/-- Witness for `c8_2q_promotion` at a concrete 2Q state: key 1 resident
in `recent`, key 2 resident only in `recent`, key 3 only in the ghost
set. -/
theorem c8_2q_promotion_witness :
    (lruContains (q2Add (⟨5, 1, 0, 0, ⟨5, [(1, 10), (2, 20)]⟩,
        ⟨5, [(4, 40)]⟩, ⟨2, [(3, ())]⟩⟩ : TwoQueueCache Nat Nat) 1 11).frequent
        1 = true ∧
      lruContains (q2Add (⟨5, 1, 0, 0, ⟨5, [(1, 10), (2, 20)]⟩,
        ⟨5, [(4, 40)]⟩, ⟨2, [(3, ())]⟩⟩ : TwoQueueCache Nat Nat) 1 11).recent
        1 = false) ∧
    (lruContains (q2Get (⟨5, 1, 0, 0, ⟨5, [(1, 10), (2, 20)]⟩,
        ⟨5, [(4, 40)]⟩, ⟨2, [(3, ())]⟩⟩ : TwoQueueCache Nat Nat) 2).1.frequent
        2 = true ∧
      lruContains (q2Get (⟨5, 1, 0, 0, ⟨5, [(1, 10), (2, 20)]⟩,
        ⟨5, [(4, 40)]⟩, ⟨2, [(3, ())]⟩⟩ : TwoQueueCache Nat Nat) 2).1.recent
        2 = false) ∧
    (lruContains (q2Add (⟨5, 1, 0, 0, ⟨5, [(1, 10), (2, 20)]⟩,
        ⟨5, [(4, 40)]⟩, ⟨2, [(3, ())]⟩⟩ : TwoQueueCache Nat Nat) 3 33).frequent
        3 = true ∧
      lruContains (q2Add (⟨5, 1, 0, 0, ⟨5, [(1, 10), (2, 20)]⟩,
        ⟨5, [(4, 40)]⟩, ⟨2, [(3, ())]⟩⟩ : TwoQueueCache Nat Nat) 3 33).recent
        3 = false) :=
  c8_2q_promotion
    (⟨5, 1, 0, 0, ⟨5, [(1, 10), (2, 20)]⟩, ⟨5, [(4, 40)]⟩,
      ⟨2, [(3, ())]⟩⟩ : TwoQueueCache Nat Nat)
    1 2 3 11 33 20 (by decide) (by decide) (by decide) (by decide)
    (by decide) (by decide) (by decide) (by decide) (by decide)

/-! ### Claim C7: Resize -/

theorem list_eq_nil_of_getLast?_none {l : List (K × V)}
    (h : l.getLast? = none) : l = [] := by
  cases hc : l with
  | nil => rfl
  | cons a t =>
    rw [hc] at h
    exact absurd h (by simp)

theorem removeOldestN_length (d : Nat) :
    ∀ l : List (K × V), ((removeOldestN d l).1).length = l.length - d := by
  induction d with
  | zero => intro l; rfl
  | succ d ih =>
    intro l
    unfold removeOldestN
    cases hl : l.getLast? with
    | none =>
      have := list_eq_nil_of_getLast?_none hl
      subst this
      simp
    | some p =>
      dsimp only
      have h1 := ih l.dropLast
      have h2 : l.length ≠ 0 := by
        intro h0
        rw [List.length_eq_zero] at h0
        subst h0
        simp at hl
      match hx : removeOldestN d l.dropLast with
      | (l', evs) =>
        rw [hx] at h1
        dsimp only at h1 ⊢
        rw [h1, List.length_dropLast]
        omega

theorem removeFrontN_length (d : Nat) :
    ∀ l : List (K × V), ((removeFrontN d l).1).length = l.length - d := by
  induction d with
  | zero => intro l; rfl
  | succ d ih =>
    intro l
    unfold removeFrontN
    cases l with
    | nil => simp
    | cons p t =>
      dsimp only
      have h1 := ih t
      match hx : removeFrontN d t with
      | (l', evs) =>
        rw [hx] at h1
        dsimp only at h1 ⊢
        simp only [List.length_cons]
        omega

theorem lruResize_nonpos {c : LRUCache K V} {n : Int} (h : n ≤ 0) :
    lruResize c n = (c, (lruLen c : Int) - n, true, []) := by
  unfold lruResize
  rw [if_pos h]
  rfl

theorem lruResize_pos_len {c : LRUCache K V} {n : Int} (h : 0 < n) :
    lruLen (lruResize c n).1 = lruLen c - (lruLen c - n.toNat) ∧
    (lruResize c n).1.size = n.toNat ∧
    (lruResize c n).2.1 = ((lruLen c - n.toNat : Nat) : Int) ∧
    (lruResize c n).2.2.1 = false := by
  unfold lruResize
  rw [if_neg (by omega)]
  dsimp only
  have h1 := removeOldestN_length (K := K) (V := V)
    (c.list.length - n.toNat) c.list
  match hx : removeOldestN (c.list.length - n.toNat) c.list with
  | (l', evs) =>
    rw [hx] at h1
    dsimp only at h1 ⊢
    exact ⟨h1, rfl, rfl, rfl⟩

theorem fifoResize_nonpos {c : FIFOCache K V} {n : Int} (h : n ≤ 0) :
    fifoResize c n = (c, (fifoLen c : Int) - n, true, []) := by
  unfold fifoResize
  rw [if_pos h]
  rfl

theorem fifoResize_pos_len {c : FIFOCache K V} {n : Int} (h : 0 < n) :
    fifoLen (fifoResize c n).1 = fifoLen c - (fifoLen c - n.toNat) ∧
    (fifoResize c n).1.size = n.toNat ∧
    (fifoResize c n).2.1 = ((fifoLen c - n.toNat : Nat) : Int) ∧
    (fifoResize c n).2.2.1 = false := by
  unfold fifoResize
  rw [if_neg (by omega)]
  dsimp only
  have h1 := removeFrontN_length (K := K) (V := V)
    (c.list.length - n.toNat) c.list
  match hx : removeFrontN (c.list.length - n.toNat) c.list with
  | (l', evs) =>
    rw [hx] at h1
    dsimp only at h1 ⊢
    exact ⟨h1, rfl, rfl, rfl⟩

theorem ratFloorNat_le (sz : Nat) {r : ℚ} (h0 : 0 ≤ r) (h1 : r ≤ 1) :
    ratFloorNat ((sz : ℚ) * r) ≤ sz := by
  unfold ratFloorNat
  by_contra h
  push_neg at h
  have h2 : (sz : ℤ) + 1 ≤ Rat.floor ((sz : ℚ) * r) := by omega
  have h3 := Rat.le_floor.mp h2
  have h4 : (sz : ℚ) * r ≤ (sz : ℚ) :=
    mul_le_of_le_one_right (by positivity) h1
  have h5 : (((sz : ℤ) + 1 : ℤ) : ℚ) ≤ (sz : ℚ) := le_trans h3 h4
  push_cast at h5
  linarith

theorem q2EnsureSpace_fields (c : TwoQueueCache K V) (b : Bool) :
    (q2EnsureSpace c b).size = c.size ∧
    (q2EnsureSpace c b).recentSize = c.recentSize := by
  unfold q2EnsureSpace
  by_cases h1 : lruLen c.recent + lruLen c.frequent < c.size
  · rw [if_pos h1]; exact ⟨rfl, rfl⟩
  · rw [if_neg h1]
    by_cases h2 : 0 < lruLen c.recent ∧ (lruLen c.recent > c.recentSize ∨
        (lruLen c.recent = c.recentSize ∧ b = false))
    · rw [if_pos h2]
      match lruRemoveOldest c.recent with
      | (r', some p, evs) => exact ⟨rfl, rfl⟩
      | (r', none, evs) => exact ⟨rfl, rfl⟩
    · rw [if_neg h2]; exact ⟨rfl, rfl⟩

/-- One `ensureSpace(true)` evicts exactly one resident entry when the
combined length strictly exceeds `size ≥ recentSize`. -/
theorem q2EnsureSpace_len_of_lt {c : TwoQueueCache K V}
    (hrs : c.recentSize ≤ c.size) (hlt : c.size < q2Len c) :
    q2Len (q2EnsureSpace c true) + 1 = q2Len c := by
  unfold q2EnsureSpace
  rw [if_neg (by unfold q2Len at hlt; omega)]
  by_cases hcond : 0 < lruLen c.recent ∧ (lruLen c.recent > c.recentSize ∨
      (lruLen c.recent = c.recentSize ∧ true = false))
  · rw [if_pos hcond]
    have hro := lruRemoveOldest_len c.recent
    match hx : lruRemoveOldest c.recent with
    | (r', some p, evs) =>
      dsimp only
      unfold q2Len
      dsimp only
      rw [hx] at hro
      dsimp only [lruLen] at hro hcond ⊢
      omega
    | (r', none, evs) =>
      exfalso
      unfold lruRemoveOldest at hx
      cases hgl : c.recent.list.getLast? with
      | some q => rw [hgl] at hx; cases hx
      | none =>
        have hnil := list_eq_nil_of_getLast?_none hgl
        have h0 := hcond.1
        simp [lruLen, hnil] at h0
  · rw [if_neg hcond]
    have hfreq : 0 < lruLen c.frequent := by
      by_contra hz
      push_neg at hz
      have hf0 : lruLen c.frequent = 0 := by omega
      have hr : c.size < lruLen c.recent := by
        unfold q2Len at hlt
        omega
      exact hcond ⟨by omega, Or.inl (by omega)⟩
    have hro := lruRemoveOldest_len c.frequent
    unfold q2Len
    dsimp only
    omega

theorem q2EnsureSpace_iter_len (d : Nat) :
    ∀ st : TwoQueueCache K V, st.recentSize ≤ st.size →
      st.size + d ≤ q2Len st →
      q2Len ((fun s => q2EnsureSpace s true)^[d] st) = q2Len st - d ∧
      ((fun s => q2EnsureSpace s true)^[d] st).size = st.size := by
  induction d with
  | zero => intro st _ _; exact ⟨rfl, rfl⟩
  | succ d ih =>
    intro st h1 h2
    rw [Function.iterate_succ_apply]
    have hlt : st.size < q2Len st := by omega
    have hstep := q2EnsureSpace_len_of_lt h1 hlt
    have hfields := q2EnsureSpace_fields st true
    obtain ⟨ha, hb⟩ := ih (q2EnsureSpace st true)
      (by rw [hfields.1, hfields.2]; exact h1)
      (by rw [hfields.1]; omega)
    refine ⟨by omega, by rw [hb, hfields.1]⟩

theorem q2Resize_nonpos {c : TwoQueueCache K V} {n : Int} (h : n ≤ 0) :
    q2Resize c n = (c, (q2Len c : Int) - n, true) := by
  unfold q2Resize
  rw [if_pos h]

theorem q2Resize_shrink {c : TwoQueueCache K V} {n : Int} (h0 : 0 < n)
    (h1 : n.toNat < q2Len c)
    (hr0 : 0 ≤ c.recentRatio) (hr1 : c.recentRatio ≤ 1) :
    q2Len (q2Resize c n).1 = n.toNat ∧
    (q2Resize c n).2.1 = ((q2Len c - n.toNat : Nat) : Int) ∧
    (q2Resize c n).2.2 = false := by
  unfold q2Resize
  rw [if_neg (by omega)]
  dsimp only
  have hrsle : ratFloorNat ((n.toNat : ℚ) * c.recentRatio) ≤ n.toNat :=
    ratFloorNat_le n.toNat hr0 hr1
  set c1 : TwoQueueCache K V := { c with size := n.toNat, recentSize := ratFloorNat ((n.toNat : ℚ) * c.recentRatio) } with hc1def
  have hc1len : q2Len c1 = q2Len c := rfl
  have hc1sz : c1.size = n.toNat := rfl
  have hc1rs : c1.recentSize = ratFloorNat ((n.toNat : ℚ) * c.recentRatio) :=
    rfl
  have hiter := q2EnsureSpace_iter_len
    (lruLen c.recent + lruLen c.frequent - n.toNat) c1
    (by rw [hc1sz, hc1rs]; exact hrsle)
    (by rw [hc1sz, hc1len]; unfold q2Len at h1 ⊢; omega)
  rw [hc1len] at hiter
  have hdiffeq : q2Len c - (lruLen c.recent + lruLen c.frequent - n.toNat)
      = n.toNat := by
    unfold q2Len at h1 ⊢
    omega
  set c2 := (fun s => q2EnsureSpace s true)^[lruLen c.recent +
    lruLen c.frequent - n.toNat] c1 with hc2
  obtain ⟨hlen2, hsz2⟩ := hiter
  rw [hdiffeq] at hlen2
  have hrlen := (lruResize_pos_len (c := c2.recent) (n := (n.toNat : Int))
    (by omega)).1
  have hflen := (lruResize_pos_len (c := c2.frequent) (n := (n.toNat : Int))
    (by omega)).1
  have htn : ((n.toNat : Int)).toNat = n.toNat := rfl
  rw [htn] at hrlen hflen
  have hsplit : lruLen c2.recent + lruLen c2.frequent = n.toNat := hlen2
  refine ⟨?_, ?_, rfl⟩
  · show lruLen (lruResize c2.recent (n.toNat : Int)).1
      + lruLen (lruResize c2.frequent (n.toNat : Int)).1 = n.toNat
    omega
  · show ((lruLen c.recent + lruLen c.frequent - n.toNat : Nat) : Int)
      = ((q2Len c - n.toNat : Nat) : Int)
    rfl

/-- One `LRUK.ensureSpace` step on an over-full cache: either it evicts
exactly one entry, or `frequent` was already empty and nothing happens;
`frequent` never grows and `size` is untouched. -/
theorem lrukEnsureSpace_step {st : LRUKCache K V}
    (h : st.size < lrukLen st) :
    (lrukEnsureSpace st).size = st.size ∧
    lruLen (lrukEnsureSpace st).frequent ≤ lruLen st.frequent ∧
    (lrukLen (lrukEnsureSpace st) + 1 = lrukLen st ∨
      (lruLen (lrukEnsureSpace st).frequent = 0 ∧
        lrukLen (lrukEnsureSpace st) = lrukLen st)) := by
  unfold lrukEnsureSpace
  rw [if_neg (by unfold lrukLen at h; omega)]
  by_cases hcond : 0 < lruLen st.recent ∧ (lruLen st.recent > st.recentSize ∨
      lruLen st.recent = st.recentSize)
  · rw [if_pos hcond]
    have hro := lruRemoveOldest_len st.recent
    unfold lrukLen
    dsimp only
    have h1 := hcond.1
    exact ⟨rfl, Nat.le_refl _, Or.inl (by omega)⟩
  · rw [if_neg hcond]
    have hro := lruRemoveOldest_len st.frequent
    unfold lrukLen
    dsimp only
    by_cases hf : 0 < lruLen st.frequent
    · exact ⟨rfl, by omega, Or.inl (by omega)⟩
    · have hf0 : lruLen st.frequent = 0 := by omega
      have hro0 : lruLen (lruRemoveOldest st.frequent).1 = 0 := by omega
      exact ⟨rfl, by omega, Or.inr ⟨hro0, by omega⟩⟩

theorem lrukEnsureSpace_iter (d : Nat) :
    ∀ st : LRUKCache K V, st.size + d ≤ lrukLen st →
      (lrukEnsureSpace^[d] st).size = st.size ∧
      lrukLen st - d ≤ lrukLen (lrukEnsureSpace^[d] st) ∧
      lruLen (lrukEnsureSpace^[d] st).frequent ≤ lruLen st.frequent ∧
      (lruLen (lrukEnsureSpace^[d] st).frequent = 0 ∨
        lrukLen (lrukEnsureSpace^[d] st) = lrukLen st - d) := by
  induction d with
  | zero =>
    intro st _
    rw [Function.iterate_zero_apply]
    exact ⟨rfl, by omega, Nat.le_refl _, Or.inr (by omega)⟩
  | succ d ih =>
    intro st h
    rw [Function.iterate_succ_apply]
    have hstep := lrukEnsureSpace_step (V := V) (by omega : st.size < lrukLen st)
    obtain ⟨hsz1, hfle1, hdisj1⟩ := hstep
    obtain ⟨hsz2, hge2, hfle2, hdisj2⟩ := ih (lrukEnsureSpace st)
      (by rw [hsz1]; omega)
    refine ⟨by rw [hsz2, hsz1], by omega, by omega, ?_⟩
    rcases hdisj1 with h1 | ⟨hf0, hlen0⟩
    · rcases hdisj2 with h2 | h2
      · exact Or.inl h2
      · exact Or.inr (by omega)
    · exact Or.inl (by omega)

theorem lrukResize_nonpos {c : LRUKCache K V} {n : Int} (h : n ≤ 0) :
    lrukResize c n = (c, (lrukLen c : Int) - n, true) := by
  unfold lrukResize
  rw [if_pos h]

theorem lrukResize_shrink {c : LRUKCache K V} {n : Int} (h0 : 0 < n)
    (h1 : n.toNat < lrukLen c) :
    lrukLen (lrukResize c n).1 = n.toNat ∧
    (lrukResize c n).2.1 = ((lrukLen c - n.toNat : Nat) : Int) ∧
    (lrukResize c n).2.2 = false := by
  unfold lrukResize
  rw [if_neg (by omega)]
  dsimp only
  set c1 : LRUKCache K V := { c with size := n.toNat } with hc1def
  have hc1len : lrukLen c1 = lrukLen c := rfl
  have hc1sz : c1.size = n.toNat := rfl
  have hiter := lrukEnsureSpace_iter
    (lruLen c.recent + lruLen c.frequent - n.toNat) c1
    (by rw [hc1sz, hc1len]; unfold lrukLen at h1 ⊢; omega)
  rw [hc1len] at hiter
  set c2 := lrukEnsureSpace^[lruLen c.recent + lruLen c.frequent - n.toNat] c1
    with hc2
  obtain ⟨hsz2, hge2, hfle2, hdisj2⟩ := hiter
  have hdiffeq : lrukLen c - (lruLen c.recent + lruLen c.frequent - n.toNat)
      = n.toNat := by
    unfold lrukLen at h1 ⊢
    omega
  rw [hdiffeq] at hge2 hdisj2
  have hrlen := (lruResize_pos_len (c := c2.recent) (n := (n.toNat : Int))
    (by omega)).1
  have hflen := (lruResize_pos_len (c := c2.frequent) (n := (n.toNat : Int))
    (by omega)).1
  have htn : ((n.toNat : Int)).toNat = n.toNat := rfl
  rw [htn] at hrlen hflen
  have hc2split : lrukLen c2 = lruLen c2.recent + lruLen c2.frequent := rfl
  refine ⟨?_, rfl, rfl⟩
  show lruLen (lruResize c2.recent (n.toNat : Int)).1
    + lruLen (lruResize c2.frequent (n.toNat : Int)).1 = n.toNat
  rcases hdisj2 with hf0 | hlen
  · omega
  · omega

/-- Claim C7: for each engine exposing `Resize` (LRU, FIFO, 2Q, LRU-K),
`Resize(m)` with `m ≤ 0` reports an error together with `Len() - m` (the
number of entries that would need eviction to reach the requested bound)
and leaves the state unchanged, while `Resize(n)` with `0 < n < Len()`
reports no error, returns exactly `Len() - n`, and leaves `Len() = n`. -/
theorem c7_resize_contract (lc : LRUCache K V) (fc : FIFOCache K V)
    (qc : TwoQueueCache K V) (kc : LRUKCache K V) (m n : Int)
    (hm : m ≤ 0) (hn : 0 < n)
    (hln : n.toNat < lruLen lc) (hfn : n.toNat < fifoLen fc)
    (hqn : n.toNat < q2Len qc) (hkn : n.toNat < lrukLen kc)
    (hr0 : 0 ≤ qc.recentRatio) (hr1 : qc.recentRatio ≤ 1) :
    (lruResize lc m = (lc, (lruLen lc : Int) - m, true, []) ∧
      fifoResize fc m = (fc, (fifoLen fc : Int) - m, true, []) ∧
      q2Resize qc m = (qc, (q2Len qc : Int) - m, true) ∧
      lrukResize kc m = (kc, (lrukLen kc : Int) - m, true)) ∧
    (lruLen (lruResize lc n).1 = n.toNat ∧
      (lruResize lc n).2.1 = ((lruLen lc - n.toNat : Nat) : Int) ∧
      (lruResize lc n).2.2.1 = false) ∧
    (fifoLen (fifoResize fc n).1 = n.toNat ∧
      (fifoResize fc n).2.1 = ((fifoLen fc - n.toNat : Nat) : Int) ∧
      (fifoResize fc n).2.2.1 = false) ∧
    (q2Len (q2Resize qc n).1 = n.toNat ∧
      (q2Resize qc n).2.1 = ((q2Len qc - n.toNat : Nat) : Int) ∧
      (q2Resize qc n).2.2 = false) ∧
    (lrukLen (lrukResize kc n).1 = n.toNat ∧
      (lrukResize kc n).2.1 = ((lrukLen kc - n.toNat : Nat) : Int) ∧
      (lrukResize kc n).2.2 = false) := by
  have hlru := lruResize_pos_len (c := lc) (n := n) hn
  have hfifo := fifoResize_pos_len (c := fc) (n := n) hn
  have hq := q2Resize_shrink (c := qc) (n := n) hn hqn hr0 hr1
  have hk := lrukResize_shrink (c := kc) (n := n) hn hkn
  refine ⟨⟨lruResize_nonpos hm, fifoResize_nonpos hm, q2Resize_nonpos hm,
    lrukResize_nonpos hm⟩, ⟨?_, hlru.2.2.1, hlru.2.2.2⟩,
    ⟨?_, hfifo.2.2.1, hfifo.2.2.2⟩, hq, hk⟩
  · rw [hlru.1]; omega
  · rw [hfifo.1]; omega

/-- Witness for `c7_resize_contract` at concrete caches with three
entries each, resizing to -1 and to 2. -/
theorem c7_resize_contract_witness :
    (lruResize (⟨3, [(1, 1), (2, 2), (3, 3)]⟩ : LRUCache Nat Nat) (-1)
        = (⟨3, [(1, 1), (2, 2), (3, 3)]⟩, (3 : Int) - (-1), true, []) ∧
      fifoResize (⟨3, [(1, 1), (2, 2), (3, 3)]⟩ : FIFOCache Nat Nat) (-1)
        = (⟨3, [(1, 1), (2, 2), (3, 3)]⟩, (3 : Int) - (-1), true, []) ∧
      q2Resize (⟨4, 1, 0, 0, ⟨4, [(1, 1), (2, 2)]⟩, ⟨4, [(3, 3)]⟩, ⟨2, []⟩⟩ :
          TwoQueueCache Nat Nat) (-1)
        = (⟨4, 1, 0, 0, ⟨4, [(1, 1), (2, 2)]⟩, ⟨4, [(3, 3)]⟩, ⟨2, []⟩⟩,
            (3 : Int) - (-1), true) ∧
      lrukResize (⟨4, 1, 2, ⟨4, [(1, 1), (2, 2)]⟩, ⟨4, [(3, 3)]⟩, []⟩ :
          LRUKCache Nat Nat) (-1)
        = (⟨4, 1, 2, ⟨4, [(1, 1), (2, 2)]⟩, ⟨4, [(3, 3)]⟩, []⟩,
            (3 : Int) - (-1), true)) ∧
    (lruLen (lruResize (⟨3, [(1, 1), (2, 2), (3, 3)]⟩ : LRUCache Nat Nat)
        2).1 = (2 : Int).toNat ∧
      (lruResize (⟨3, [(1, 1), (2, 2), (3, 3)]⟩ : LRUCache Nat Nat) 2).2.1
        = ((3 - (2 : Int).toNat : Nat) : Int) ∧
      (lruResize (⟨3, [(1, 1), (2, 2), (3, 3)]⟩ : LRUCache Nat Nat) 2).2.2.1
        = false) ∧
    (fifoLen (fifoResize (⟨3, [(1, 1), (2, 2), (3, 3)]⟩ : FIFOCache Nat Nat)
        2).1 = (2 : Int).toNat ∧
      (fifoResize (⟨3, [(1, 1), (2, 2), (3, 3)]⟩ : FIFOCache Nat Nat) 2).2.1
        = ((3 - (2 : Int).toNat : Nat) : Int) ∧
      (fifoResize (⟨3, [(1, 1), (2, 2), (3, 3)]⟩ : FIFOCache Nat Nat)
        2).2.2.1 = false) ∧
    (q2Len (q2Resize (⟨4, 1, 0, 0, ⟨4, [(1, 1), (2, 2)]⟩, ⟨4, [(3, 3)]⟩,
        ⟨2, []⟩⟩ : TwoQueueCache Nat Nat) 2).1 = (2 : Int).toNat ∧
      (q2Resize (⟨4, 1, 0, 0, ⟨4, [(1, 1), (2, 2)]⟩, ⟨4, [(3, 3)]⟩, ⟨2, []⟩⟩ :
          TwoQueueCache Nat Nat) 2).2.1 = ((3 - (2 : Int).toNat : Nat) : Int) ∧
      (q2Resize (⟨4, 1, 0, 0, ⟨4, [(1, 1), (2, 2)]⟩, ⟨4, [(3, 3)]⟩, ⟨2, []⟩⟩ :
          TwoQueueCache Nat Nat) 2).2.2 = false) ∧
    (lrukLen (lrukResize (⟨4, 1, 2, ⟨4, [(1, 1), (2, 2)]⟩, ⟨4, [(3, 3)]⟩,
        []⟩ : LRUKCache Nat Nat) 2).1 = (2 : Int).toNat ∧
      (lrukResize (⟨4, 1, 2, ⟨4, [(1, 1), (2, 2)]⟩, ⟨4, [(3, 3)]⟩, []⟩ :
          LRUKCache Nat Nat) 2).2.1 = ((3 - (2 : Int).toNat : Nat) : Int) ∧
      (lrukResize (⟨4, 1, 2, ⟨4, [(1, 1), (2, 2)]⟩, ⟨4, [(3, 3)]⟩, []⟩ :
          LRUKCache Nat Nat) 2).2.2 = false) :=
  c7_resize_contract (⟨3, [(1, 1), (2, 2), (3, 3)]⟩ : LRUCache Nat Nat)
    (⟨3, [(1, 1), (2, 2), (3, 3)]⟩ : FIFOCache Nat Nat)
    (⟨4, 1, 0, 0, ⟨4, [(1, 1), (2, 2)]⟩, ⟨4, [(3, 3)]⟩, ⟨2, []⟩⟩ :
      TwoQueueCache Nat Nat)
    (⟨4, 1, 2, ⟨4, [(1, 1), (2, 2)]⟩, ⟨4, [(3, 3)]⟩, []⟩ : LRUKCache Nat Nat)
    (-1) 2 (by decide) (by decide) (by decide) (by decide) (by decide)
    (by decide) le_rfl zero_le_one

/-! ### Claim C9: the LFU tie-break -/

omit [DecidableEq K] in
theorem pqLess_irrefl (a : PqEntry K V) : pqLess a a = false := by
  simp [pqLess]

omit [DecidableEq K] in
theorem pqLess_false_iff {a b : PqEntry K V} :
    pqLess a b = false ↔ (b.referenceCount < a.referenceCount ∨
      (a.referenceCount = b.referenceCount ∧
        b.referencedAt ≤ a.referencedAt)) := by
  unfold pqLess
  by_cases h : a.referenceCount = b.referenceCount
  · rw [if_pos h, decide_eq_false_iff_not]
    constructor
    · intro h2
      exact Or.inr ⟨h, by omega⟩
    · intro h2
      rcases h2 with h2 | ⟨h3, h4⟩
      · omega
      · omega
  · rw [if_neg h, decide_eq_false_iff_not]
    constructor
    · intro h2
      exact Or.inl (by omega)
    · intro h2
      rcases h2 with h2 | ⟨h3, h4⟩
      · omega
      · exact absurd h3 h

omit [DecidableEq K] in
theorem pqLess_neg_trans {a b c : PqEntry K V} (h1 : pqLess a b = false)
    (h2 : pqLess b c = false) : pqLess a c = false := by
  rw [pqLess_false_iff] at h1 h2 ⊢
  omega

/-- The binary-heap ordering property of the LFU priority queue: no
non-root entry sorts before its parent. -/
def heapPropB (l : List (PqEntry K V)) : Bool :=
  (List.range l.length).all fun j =>
    if j = 0 then true
    else
      match l.get? j, l.get? ((j - 1) / 2) with
      | some a, some b => ! pqLess a b
      | _, _ => true

omit [DecidableEq K] in
theorem get?_some_lt {l : List (PqEntry K V)} {j : Nat} {e : PqEntry K V}
    (h : l.get? j = some e) : j < l.length := by
  by_contra hz
  push_neg at hz
  rw [List.get?_eq_none.mpr hz] at h
  cases h

omit [DecidableEq K] in
theorem heapPropB_spec {l : List (PqEntry K V)} (hp : heapPropB l = true)
    {j : Nat} {a b : PqEntry K V} (hj : 0 < j) (ha : l.get? j = some a)
    (hb : l.get? ((j - 1) / 2) = some b) : pqLess a b = false := by
  have hjlen : j < l.length := get?_some_lt ha
  unfold heapPropB at hp
  rw [List.all_eq_true] at hp
  have h1 := hp j (by rwa [List.mem_range])
  rw [if_neg (by omega), ha, hb] at h1
  simpa using h1

omit [DecidableEq K] in
theorem heapPropB_root_min {l : List (PqEntry K V)} (hp : heapPropB l = true)
    {r : PqEntry K V} (hr : l.get? 0 = some r) :
    ∀ j e, l.get? j = some e → pqLess e r = false := by
  intro j
  induction j using Nat.strong_induction_on with
  | _ j ih =>
    intro e he
    cases Nat.eq_zero_or_pos j with
    | inl h0 =>
      subst h0
      rw [hr] at he
      injection he with he
      subst he
      exact pqLess_irrefl _
    | inr hpos =>
      have hparent : (j - 1) / 2 < j := by omega
      have hjlen : j < l.length := get?_some_lt he
      obtain ⟨p, hpget⟩ : ∃ p, l.get? ((j - 1) / 2) = some p := by
        cases hq : l.get? ((j - 1) / 2) with
        | some p => exact ⟨p, rfl⟩
        | none =>
          rw [List.get?_eq_none] at hq
          omega
      exact pqLess_neg_trans (heapPropB_spec hp hpos he hpget)
        (ih _ hparent p hpget)

omit [DecidableEq K] in
theorem pqSwap_length (l : List (PqEntry K V)) (i j : Nat) :
    (pqSwap l i j).length = l.length := by
  unfold pqSwap
  split
  · rfl
  · cases hx : l.get? i with
    | none => rfl
    | some x =>
      cases hy : l.get? j with
      | none => rfl
      | some y => simp

omit [DecidableEq K] in
theorem pqSwap_get?_ne (l : List (PqEntry K V)) (i j k : Nat)
    (hki : k ≠ i) (hkj : k ≠ j) : (pqSwap l i j).get? k = l.get? k := by
  unfold pqSwap
  split
  · rfl
  · cases hx : l.get? i with
    | none => rfl
    | some x =>
      cases hy : l.get? j with
      | none => rfl
      | some y =>
        dsimp only
        rw [List.get?_set_ne _ _ (Ne.symm hkj),
          List.get?_set_ne _ _ (Ne.symm hki)]

omit [DecidableEq K] in
theorem pqDownGo_length (fuel : Nat) :
    ∀ (l : List (PqEntry K V)) (i n : Nat),
      ((pqDownGo fuel l i n).1).length = l.length := by
  induction fuel with
  | zero => intro l i n; rfl
  | succ fuel ih =>
    intro l i n
    unfold pqDownGo
    by_cases h1 : n ≤ 2 * i + 1
    · rw [if_pos h1]
    · rw [if_neg h1]
      by_cases h2 : pqLessAt l (pqChild l i n) i = true
      · rw [if_pos h2, ih, pqSwap_length]
      · rw [if_neg h2]

omit [DecidableEq K] in
theorem pqDownGo_get?_ge (fuel : Nat) :
    ∀ (l : List (PqEntry K V)) (i n m : Nat), n ≤ m →
      ((pqDownGo fuel l i n).1).get? m = l.get? m := by
  induction fuel with
  | zero => intro l i n m hm; rfl
  | succ fuel ih =>
    intro l i n m hm
    unfold pqDownGo
    by_cases h1 : n ≤ 2 * i + 1
    · rw [if_pos h1]
    · rw [if_neg h1]
      by_cases h2 : pqLessAt l (pqChild l i n) i = true
      · rw [if_pos h2, ih _ _ _ m hm]
        have hc1 := pqChild_gt l i n
        have hc2 := pqChild_lt l (i := i) (n := n) h1
        exact pqSwap_get?_ne l i (pqChild l i n) m (by omega) (by omega)
      · rw [if_neg h2]

omit [DecidableEq K] in
theorem pqDown_fst (l : List (PqEntry K V)) (i n : Nat) :
    (pqDown l i n).1 = (pqDownGo (n + 1) l i n).1 := by
  unfold pqDown
  match hx : pqDownGo (n + 1) l i n with
  | (a, b) => rfl

/-- `heap.Pop` hands back the heap's root entry. -/
theorem heapPop_root {l : List (PqEntry K V)} {r : PqEntry K V}
    (h : l.get? 0 = some r) : (heapPop l).1 = some r := by
  have hpos : 0 < l.length := get?_some_lt h
  unfold heapPop
  rw [if_neg (by omega)]
  dsimp only
  rw [pqDown_fst]
  have hswlen : (pqSwap l 0 (l.length - 1)).length = l.length :=
    pqSwap_length l 0 (l.length - 1)
  have hswat : (pqSwap l 0 (l.length - 1)).get? (l.length - 1) = some r := by
    by_cases h2 : l.length < 2
    · have h1 : l.length - 1 = 0 := by omega
      unfold pqSwap
      rw [if_pos h2, h1]
      exact h
    · unfold pqSwap
      rw [if_neg h2]
      obtain ⟨b, hb⟩ : ∃ b, l.get? (l.length - 1) = some b := by
        cases hq : l.get? (l.length - 1) with
        | some b => exact ⟨b, rfl⟩
        | none =>
          rw [List.get?_eq_none] at hq
          omega
      rw [h, hb]
      dsimp only
      exact List.get?_set_eq_of_lt r (by rw [List.length_set]; omega)
  have hgo := pqDownGo_get?_ge (l.length - 1 + 1) (pqSwap l 0 (l.length - 1))
    0 (l.length - 1) (l.length - 1) (Nat.le_refl _)
  have hlen2 : ((pqDownGo (l.length - 1 + 1) (pqSwap l 0 (l.length - 1)) 0
      (l.length - 1)).1).length = l.length := by
    rw [pqDownGo_length, hswlen]
  rw [List.getLast?_eq_get?, hlen2, hgo, hswat]

/-- Claim C9: when `Add` of a new key hits a full LFU cache whose heap
satisfies the heap ordering property, the evicted entry is the heap root
`r`, which no resident entry sorts before — in particular, among entries
with the same reference count as `r`, `r` carries the oldest (least)
last-reference timestamp, so the older-timestamp entry is the one
evicted. -/
theorem c9_lfu_evicts_min (c : LFUCache K V) (k : K) (v : V)
    (hp : heapPropB c.heap = true)
    (hcap : c.heap.length = c.size)
    (hsz : 1 ≤ c.size)
    (hfresh : heapFindIdx c.heap k = none) :
    ∃ r, c.heap.get? 0 = some r ∧
      (lfuAdd c k v).2.1 = true ∧
      (lfuAdd c k v).2.2 = [(r.key, r.val)] ∧
      (∀ e ∈ c.heap, pqLess e r = false) ∧
      (∀ e ∈ c.heap, e.referenceCount = r.referenceCount →
        r.referencedAt ≤ e.referencedAt) := by
  obtain ⟨r, hr⟩ : ∃ r, c.heap.get? 0 = some r := by
    cases hq : c.heap.get? 0 with
    | some r => exact ⟨r, rfl⟩
    | none =>
      rw [List.get?_eq_none] at hq
      omega
  have hmin : ∀ e ∈ c.heap, pqLess e r = false := by
    intro e he
    obtain ⟨j, hj⟩ := List.get?_of_mem he
    exact heapPropB_root_min hp hr j e hj
  refine ⟨r, hr, ?_, ?_, hmin, ?_⟩
  · unfold lfuAdd
    rw [hfresh]
    dsimp only
    rw [if_pos hcap]
  · unfold lfuAdd
    rw [hfresh]
    dsimp only
    rw [if_pos hcap]
    have hpop := heapPop_root hr
    match hx : heapPop c.heap with
    | (popped, rest) =>
      rw [hx] at hpop
      dsimp only at hpop ⊢
      rw [hpop]
  · intro e he hcnt
    have h1 := hmin e he
    rw [pqLess_false_iff] at h1
    omega

/-- The LFU state reached by `Add(1,10); Add(2,20)` on a size-2 cache:
both entries have reference count 1, key 1 carrying the older
timestamp. -/
def c9State : LFUCache Nat Nat :=
  (lfuAdd (lfuAdd (lfuNew 2) 1 10).1 2 20).1

/-- Witness for `c9_lfu_evicts_min` at `c9State`: `Add(3,30)` evicts the
older-stamped key 1. -/
theorem c9_lfu_evicts_min_witness :
    heapPropB c9State.heap = true ∧
    (∃ r, c9State.heap.get? 0 = some r ∧
      (lfuAdd c9State 3 30).2.1 = true ∧
      (lfuAdd c9State 3 30).2.2 = [(r.key, r.val)] ∧
      (∀ e ∈ c9State.heap, pqLess e r = false) ∧
      (∀ e ∈ c9State.heap, e.referenceCount = r.referenceCount →
        r.referencedAt ≤ e.referencedAt)) :=
  ⟨by decide, c9_lfu_evicts_min c9State 3 30 (by decide) (by decide)
    (by decide) (by decide)⟩

/-! ### Capacity lemmas for the FIFO, LFU and clock engines (claim C1) -/

theorem fifoAdd_size (c : FIFOCache K V) (k : K) (v : V) :
    (fifoAdd c k v).1.size = c.size := by
  unfold fifoAdd
  by_cases hmem : containsKey k c.list = true
  · rw [if_pos hmem]
  · rw [if_neg hmem]
    by_cases hover : (c.list ++ [(k, v)]).length > c.size
    · rw [if_pos hover]
    · rw [if_neg hover]

theorem fifoLen_fifoAdd_le {c : FIFOCache K V} (hsz : 1 ≤ c.size)
    (hlen : fifoLen c ≤ c.size) (k : K) (v : V) :
    fifoLen (fifoAdd c k v).1 ≤ c.size := by
  unfold fifoAdd fifoLen at *
  by_cases hmem : containsKey k c.list = true
  · have := length_eraseKey_of_contains (l := c.list) hmem
    rw [if_pos hmem]
    dsimp only
    simp only [List.length_cons]
    omega
  · rw [if_neg hmem]
    by_cases hover : (c.list ++ [(k, v)]).length > c.size
    · rw [if_pos hover]
      dsimp only
      rw [List.length_tail]
      simp only [List.length_append, List.length_cons,
        List.length_nil] at hover ⊢
      omega
    · rw [if_neg hover]
      dsimp only
      simp only [List.length_append, List.length_cons,
        List.length_nil] at hover ⊢
      omega

/-- Folding a sequence of `Add` calls over a FIFO cache. -/
def fifoAddSeq (c : FIFOCache K V) (ops : List (K × V)) : FIFOCache K V :=
  ops.foldl (fun c p => (fifoAdd c p.1 p.2).1) c

theorem fifoAddSeq_len_le {c : FIFOCache K V} (hsz : 1 ≤ c.size)
    (hlen : fifoLen c ≤ c.size) (ops : List (K × V)) :
    fifoLen (fifoAddSeq c ops) ≤ (fifoAddSeq c ops).size ∧
    (fifoAddSeq c ops).size = c.size := by
  induction ops generalizing c with
  | nil => exact ⟨hlen, rfl⟩
  | cons p t ih =>
    have h1 := fifoLen_fifoAdd_le hsz hlen p.1 p.2
    have h2 := fifoAdd_size c p.1 p.2
    have h3 := ih (c := (fifoAdd c p.1 p.2).1) (by omega) (by omega)
    unfold fifoAddSeq at *
    simp only [List.foldl_cons]
    exact ⟨h3.1, by rw [h3.2, h2]⟩

omit [DecidableEq K] in
theorem pqUpGo_length (fuel : Nat) :
    ∀ (l : List (PqEntry K V)) (j : Nat),
      (pqUpGo fuel l j).length = l.length := by
  induction fuel with
  | zero => intro l j; rfl
  | succ fuel ih =>
    intro l j
    unfold pqUpGo
    by_cases h1 : (j - 1) / 2 = j
    · rw [if_pos h1]
    · rw [if_neg h1]
      by_cases h2 : pqLessAt l j ((j - 1) / 2) = true
      · rw [if_pos h2, ih, pqSwap_length]
      · rw [if_neg h2]

omit [DecidableEq K] in
theorem pqUp_length (l : List (PqEntry K V)) (j : Nat) :
    (pqUp l j).length = l.length := pqUpGo_length (j + 1) l j

omit [DecidableEq K] in
theorem pqDown_length (l : List (PqEntry K V)) (i n : Nat) :
    ((pqDown l i n).1).length = l.length := by
  rw [pqDown_fst, pqDownGo_length]

omit [DecidableEq K] in
theorem heapPush_length (l : List (PqEntry K V)) (e : PqEntry K V) :
    (heapPush l e).length = l.length + 1 := by
  unfold heapPush pqUp
  rw [pqUpGo_length]
  simp

omit [DecidableEq K] in
theorem heapFix_length (l : List (PqEntry K V)) (i : Nat) :
    (heapFix l i).length = l.length := by
  unfold heapFix
  match hx : pqDown l i l.length with
  | (l2, moved) =>
    have hl2 : l2.length = l.length := by
      have h2 : l2 = (pqDown l i l.length).1 := by rw [hx]
      rw [h2, pqDown_length]
    dsimp only
    by_cases hm : moved = true
    · rw [if_pos hm]
      exact hl2
    · rw [if_neg hm, pqUp_length]
      exact hl2

omit [DecidableEq K] in
theorem heapPop_snd_length (l : List (PqEntry K V)) :
    ((heapPop l).2).length = l.length - 1 := by
  unfold heapPop
  by_cases h : l.length = 0
  · rw [if_pos h]
    dsimp only
    omega
  · rw [if_neg h]
    dsimp only
    rw [List.length_dropLast, pqDown_length, pqSwap_length]

theorem lfuLen_lfuAdd_le {c : LFUCache K V} (hsz : 1 ≤ c.size)
    (hlen : lfuLen c ≤ c.size) (k : K) (v : V) :
    lfuLen (lfuAdd c k v).1 ≤ c.size := by
  unfold lfuAdd lfuLen at *
  cases hf : heapFindIdx c.heap k with
  | some i =>
    dsimp only
    cases hg : c.heap.get? i with
    | some e =>
      dsimp only
      rw [heapFix_length, List.length_set]
      exact hlen
    | none => exact hlen
  | none =>
    dsimp only
    by_cases hcap : c.heap.length = c.size
    · rw [if_pos hcap]
      match hx : heapPop c.heap with
      | (popped, rest) =>
        dsimp only
        have hrl : rest.length = c.heap.length - 1 := by
          have h2 : rest = (heapPop c.heap).2 := by rw [hx]
          rw [h2, heapPop_snd_length]
        rw [heapPush_length]
        omega
    · rw [if_neg hcap]
      dsimp only
      rw [heapPush_length]
      omega

theorem clockEvictLoop_length (fuel : Nat) :
    ∀ (slots : List (Option (CEntry K V))) (hand size : Nat),
      ((clockEvictLoop fuel slots hand size).1).length = slots.length := by
  induction fuel with
  | zero => intro slots hand size; rfl
  | succ fuel ih =>
    intro slots hand size
    unfold clockEvictLoop
    cases hs : slots.getD hand none with
    | none => rfl
    | some e =>
      dsimp only
      by_cases hr : e.refCount > 0
      · rw [if_pos hr, ih, List.length_set]
      · rw [if_neg hr]

theorem clockEvict_slots_length (c : ClockCache K V) :
    (clockEvict c).slots.length = c.slots.length := by
  unfold clockEvict
  match hx : clockEvictLoop (clockRefSum c.slots + 1) c.slots c.hand
      c.size with
  | (slots, hand) =>
    have hsl : slots.length = c.slots.length := by
      have h2 : slots = (clockEvictLoop (clockRefSum c.slots + 1) c.slots
          c.hand c.size).1 := by rw [hx]
      rw [h2, clockEvictLoop_length]
    dsimp only
    cases hg : slots.getD hand none with
    | some e =>
      dsimp only
      rw [List.length_set]
      exact hsl
    | none => exact hsl

theorem clockAdd_slots_length (c : ClockCache K V) (k : K) (v : V) :
    (clockAdd c k v).slots.length = c.slots.length := by
  unfold clockAdd
  cases hf : clockFindSlot c.slots k with
  | some i =>
    dsimp only
    cases hg : c.slots.getD i none with
    | some e =>
      dsimp only
      rw [List.length_set]
    | none => rfl
  | none =>
    dsimp only
    rw [List.length_set, clockEvict_slots_length]

theorem csEvictLoop_some_length (fuel : Nat) :
    ∀ (slots : List (Option (CSEntry K V))) (hand size : Nat) out,
      csEvictLoop fuel slots hand size = some out →
      out.1.length = slots.length := by
  induction fuel with
  | zero => intro slots hand size out h; cases h
  | succ fuel ih =>
    intro slots hand size out h
    unfold csEvictLoop at h
    cases hs : slots.getD hand none with
    | none =>
      rw [hs] at h
      dsimp only at h
      injection h with h
      rw [← h]
    | some e =>
      rw [hs] at h
      dsimp only at h
      by_cases hr : e.refCount = 0
      · rw [if_pos hr] at h
        by_cases hu : e.useCount > 0
        · rw [if_pos hu] at h
          cases hrec : csEvictLoop fuel
              (slots.set hand (some { e with useCount := e.useCount - 1 }))
              ((hand + 1) % size) size with
          | none =>
            rw [hrec] at h
            cases h
          | some out2 =>
            rw [hrec] at h
            simp only [Option.map_some'] at h
            injection h with h
            have h2 := ih _ _ _ out2 hrec
            rw [← h]
            dsimp only
            rw [h2, List.length_set]
        · rw [if_neg hu] at h
          injection h with h
          rw [← h]
      · rw [if_neg hr] at h
        cases hrec : csEvictLoop fuel
            (slots.set hand (some { e with refCount := e.refCount - 1 }))
            ((hand + 1) % size) size with
        | none =>
          rw [hrec] at h
          cases h
        | some out2 =>
          rw [hrec] at h
          simp only [Option.map_some'] at h
          injection h with h
          have h2 := ih _ _ _ out2 hrec
          rw [← h]
          dsimp only
          rw [h2, List.length_set]

theorem csEvict_slots_length (c : CSCache K V) :
    (csEvict c).slots.length = c.slots.length := by
  unfold csEvict
  cases hx : csEvictLoop (csMeasure c.slots + 1) c.slots c.hand c.size with
  | none => rfl
  | some out =>
    obtain ⟨oslots, ohand, osteps⟩ := out
    have hlen := csEvictLoop_some_length _ _ _ _ _ hx
    dsimp only at hlen ⊢
    cases hg : oslots.getD ohand none with
    | some e =>
      dsimp only
      rw [List.length_set]
      exact hlen
    | none => exact hlen

theorem csAdd_slots_length (c : CSCache K V) (k : K) (v : V) :
    (csAdd c k v).slots.length = c.slots.length := by
  unfold csAdd
  cases hf : csFindSlot c.slots k with
  | some i =>
    dsimp only
    cases hg : c.slots.getD i none with
    | some e =>
      dsimp only
      rw [List.length_set]
    | none => rfl
  | none =>
    dsimp only
    rw [List.length_set, csEvict_slots_length]

theorem wsEvictLoop_some_length (fuel : Nat) :
    ∀ (slots : List (Option (WSEntry K V))) (hand size r lim now : Nat)
      (flag : Bool) out,
      wsEvictLoop fuel slots hand size r lim now flag = some out →
      out.1.length = slots.length := by
  induction fuel with
  | zero => intro slots hand size r lim now flag out h; cases h
  | succ fuel ih =>
    intro slots hand size r lim now flag out h
    unfold wsEvictLoop at h
    by_cases hfl : flag = false
    · rw [if_pos hfl] at h
      injection h with h
      rw [← h]
    · rw [if_neg hfl] at h
      cases hs : slots.getD hand none with
      | none =>
        rw [hs] at h
        dsimp only at h
        injection h with h
        rw [← h]
      | some e =>
        rw [hs] at h
        dsimp only at h
        by_cases hr : e.refCount = 0
        · rw [if_pos hr] at h
          by_cases hage : e.age + lim < now
          · rw [if_pos hage] at h
            injection h with h
            rw [← h]
          · rw [if_neg hage] at h
            exact ih _ _ _ _ _ _ _ out h
        · rw [if_neg hr] at h
          have h2 := ih _ _ _ _ _ _ _ out h
          rw [h2, List.length_set]

theorem wsEvict_slots_length {c : WSCache K V} {now : Nat} {c' : WSCache K V}
    (h : wsEvict c now = some c') : c'.slots.length = c.slots.length := by
  unfold wsEvict at h
  cases hx : wsEvictLoop (wsRefSum c.slots + 4) c.slots c.hand c.size c.hand
      c.limit now true with
  | none =>
    rw [hx] at h
    cases h
  | some out =>
    rw [hx] at h
    have hlen := wsEvictLoop_some_length _ _ _ _ _ _ _ _ _ hx
    obtain ⟨oslots, ohand⟩ := out
    dsimp only at h hlen
    cases hg : oslots.getD ohand none with
    | some e =>
      rw [hg] at h
      dsimp only at h
      injection h with h
      rw [← h]
      dsimp only
      rw [List.length_set]
      exact hlen
    | none =>
      rw [hg] at h
      dsimp only at h
      injection h with h
      rw [← h]
      exact hlen

theorem wsAdd_slots_length {c : WSCache K V} {k : K} {v : V} {now : Nat}
    {c' : WSCache K V} (h : wsAdd c k v now = some c') :
    c'.slots.length = c.slots.length := by
  unfold wsAdd at h
  cases hf : wsFindSlot c.slots k with
  | some i =>
    rw [hf] at h
    dsimp only at h
    cases hg : c.slots.getD i none with
    | some e =>
      rw [hg] at h
      dsimp only at h
      injection h with h
      rw [← h]
      dsimp only
      rw [List.length_set]
    | none =>
      rw [hg] at h
      dsimp only at h
      injection h with h
      rw [← h]
  | none =>
    rw [hf] at h
    dsimp only at h
    cases hev : wsEvict c now with
    | none =>
      rw [hev] at h
      cases h
    | some c1 =>
      rw [hev] at h
      dsimp only at h
      injection h with h
      rw [← h]
      dsimp only
      rw [List.length_set]
      exact wsEvict_slots_length hev

/-- Claim C1 amended: after every `Add`, every engine except LRU-K keeps
`Len() ≤ size` — LRU and FIFO for any `Add` sequence from a fresh cache;
LFU preserves it on each `Add`; the three clock engines always satisfy it
since the ring holds exactly `size` slots; and 2Q preserves it whenever
`recentSize < size` (true for the default recent ratio 0.25).  The LRU-K
engine does not maintain it — its `Add` path never calls `ensureSpace`,
so only the two per-queue bounds hold and `Len()` is bounded only by
`2 · size`. -/
theorem c1_capacity_invariants (size : Nat) (hsz : 1 ≤ size)
    (ops fops : List (K × V))
    (q : TwoQueueCache K V) (qk : K) (qv : V)
    (hqrs : q.recentSize < q.size) (hqlen : q2Len q ≤ q.size)
    (lk : LRUKCache K V) (kk : K) (kv : V)
    (hkr : 1 ≤ lk.recent.size) (hkf : 1 ≤ lk.frequent.size)
    (hkrl : lruLen lk.recent ≤ lk.recent.size)
    (hkfl : lruLen lk.frequent ≤ lk.frequent.size)
    (lf : LFUCache K V) (fk : K) (fv : V)
    (hlfs : 1 ≤ lf.size) (hlfl : lfuLen lf ≤ lf.size)
    (cc : ClockCache K V) (ck : K) (cv : V)
    (hcc : cc.slots.length = cc.size)
    (sc : CSCache K V) (sk : K) (sv : V)
    (hsc : sc.slots.length = sc.size)
    (wc : WSCache K V) (wk : K) (wv : V) (wnow : Nat)
    (hwc : wc.slots.length = wc.size) :
    lruLen (lruAddSeq (lruNew size) ops) ≤ size ∧
    fifoLen (fifoAddSeq (fifoNew size) fops) ≤ size ∧
    lfuLen (lfuAdd lf fk fv).1 ≤ lf.size ∧
    clockLen (clockAdd cc ck cv) ≤ cc.size ∧
    csLen (csAdd sc sk sv) ≤ sc.size ∧
    (∀ wc', wsAdd wc wk wv wnow = some wc' → wsLen wc' ≤ wc.size) ∧
    q2Len (q2Add q qk qv) ≤ q.size ∧
    lruLen (lrukAdd lk kk kv).recent ≤ lk.recent.size ∧
    lruLen (lrukAdd lk kk kv).frequent ≤ lk.frequent.size ∧
    lrukLen (lrukAdd lk kk kv) ≤ lk.recent.size + lk.frequent.size := by
  have h1 := lruAddSeq_len_le (c := lruNew size) hsz
    (by simp [lruLen, lruNew]) ops
  have h10 : (lruNew size : LRUCache K V).size = size := rfl
  have h11 := h1.1
  have h12 := h1.2
  have h4 := fifoAddSeq_len_le (c := fifoNew size) hsz
    (by simp [fifoLen, fifoNew]) fops
  have h40 : (fifoNew size : FIFOCache K V).size = size := rfl
  have h41 := h4.1
  have h42 := h4.2
  have h2 := q2Add_len_le qk qv hqrs hqlen
  have h3 := lrukAdd_len_le kk kv hkr hkf hkrl hkfl
  have h5 := lfuLen_lfuAdd_le hlfs hlfl fk fv
  have h6 : clockLen (clockAdd cc ck cv) ≤ cc.size := by
    unfold clockLen
    calc ((clockAdd cc ck cv).slots.filter fun o => o.isSome).length
        ≤ (clockAdd cc ck cv).slots.length := List.length_filter_le _ _
      _ = cc.slots.length := clockAdd_slots_length cc ck cv
      _ = cc.size := hcc
  have h7 : csLen (csAdd sc sk sv) ≤ sc.size := by
    unfold csLen
    calc ((csAdd sc sk sv).slots.filter fun o => o.isSome).length
        ≤ (csAdd sc sk sv).slots.length := List.length_filter_le _ _
      _ = sc.slots.length := csAdd_slots_length sc sk sv
      _ = sc.size := hsc
  have h8 : ∀ wc', wsAdd wc wk wv wnow = some wc' → wsLen wc' ≤ wc.size := by
    intro wc' hw
    unfold wsLen
    calc (wc'.slots.filter fun o => o.isSome).length
        ≤ wc'.slots.length := List.length_filter_le _ _
      _ = wc.slots.length := wsAdd_slots_length hw
      _ = wc.size := hwc
  refine ⟨by omega, by omega, h5, h6, h7, h8, h2, h3.1, h3.2, ?_⟩
  unfold lrukLen
  omega

/-- Witness for `c1_capacity_invariants` at concrete caches of every
engine. -/
theorem c1_capacity_invariants_witness :
    lruLen (lruAddSeq (lruNew 2 : LRUCache Nat Nat)
      [(1, 1), (2, 2), (3, 3)]) ≤ 2 ∧
    fifoLen (fifoAddSeq (fifoNew 2 : FIFOCache Nat Nat)
      [(1, 1), (2, 2), (3, 3)]) ≤ 2 ∧
    lfuLen (lfuAdd (⟨2, [⟨1, 10, 1, 0⟩, ⟨2, 20, 1, 1⟩], 2⟩ :
      LFUCache Nat Nat) 3 30).1 ≤ 2 ∧
    clockLen (clockAdd (⟨1, [some ⟨1, 1, 1⟩], 0, false⟩ :
      ClockCache Nat Nat) 9 9) ≤ 1 ∧
    csLen (csAdd (⟨1, [some ⟨1, 1, 1, 0⟩], 0, false⟩ :
      CSCache Nat Nat) 9 9) ≤ 1 ∧
    (∀ wc', wsAdd (⟨1, [some ⟨1, 1, 1, 0⟩], 0, 5, false⟩ :
      WSCache Nat Nat) 9 9 7 = some wc' → wsLen wc' ≤ 1) ∧
    q2Len (q2Add (⟨5, 1, 1 / 4, 1 / 2, ⟨5, [(1, 1)]⟩, ⟨5, [(2, 2)]⟩,
      ⟨2, []⟩⟩ : TwoQueueCache Nat Nat) 9 9) ≤ 5 ∧
    lruLen (lrukAdd (⟨2, 0, 2, ⟨2, [(1, 1)]⟩, ⟨2, [(2, 2)]⟩, [(1, 1)]⟩ :
      LRUKCache Nat Nat) 9 9).recent ≤ 2 ∧
    lruLen (lrukAdd (⟨2, 0, 2, ⟨2, [(1, 1)]⟩, ⟨2, [(2, 2)]⟩, [(1, 1)]⟩ :
      LRUKCache Nat Nat) 9 9).frequent ≤ 2 ∧
    lrukLen (lrukAdd (⟨2, 0, 2, ⟨2, [(1, 1)]⟩, ⟨2, [(2, 2)]⟩, [(1, 1)]⟩ :
      LRUKCache Nat Nat) 9 9) ≤ 2 + 2 :=
  c1_capacity_invariants 2 (by decide) [(1, 1), (2, 2), (3, 3)]
    [(1, 1), (2, 2), (3, 3)]
    (⟨5, 1, 1 / 4, 1 / 2, ⟨5, [(1, 1)]⟩, ⟨5, [(2, 2)]⟩, ⟨2, []⟩⟩ :
      TwoQueueCache Nat Nat) 9 9 (by decide) (by decide)
    (⟨2, 0, 2, ⟨2, [(1, 1)]⟩, ⟨2, [(2, 2)]⟩, [(1, 1)]⟩ : LRUKCache Nat Nat)
    9 9 (by decide) (by decide) (by decide) (by decide)
    (⟨2, [⟨1, 10, 1, 0⟩, ⟨2, 20, 1, 1⟩], 2⟩ : LFUCache Nat Nat) 3 30
    (by decide) (by decide)
    (⟨1, [some ⟨1, 1, 1⟩], 0, false⟩ : ClockCache Nat Nat) 9 9 (by decide)
    (⟨1, [some ⟨1, 1, 1, 0⟩], 0, false⟩ : CSCache Nat Nat) 9 9 (by decide)
    (⟨1, [some ⟨1, 1, 1, 0⟩], 0, 5, false⟩ : WSCache Nat Nat) 9 9 7
    (by decide)

/-- Claim C3 amended: the LFU engine invokes the eviction callback exactly
once per capacity-driven eviction and never on explicit `Remove`; the FIFO
and LRU engines invoke the callback on every entry removal — once per
explicitly removed present key (`Remove`/`RemoveMany` go through
`removeElement`, which fires it) as well as exactly once per
capacity-driven eviction. -/
theorem c3_callback_discipline (lf : LFUCache K V) (lc : LRUCache K V)
    (fc : FIFOCache K V) (k k2 : K) (v : V)
    (hl : lookupKey k lc.list = some v)
    (hf : lookupKey k fc.list = some v)
    (hfull : lc.size ≤ lruLen lc)
    (hk2 : containsKey k2 lc.list = false)
    (hffull : fc.size ≤ fifoLen fc)
    (hfk2 : containsKey k2 fc.list = false)
    (hlcap : lf.heap.length = lf.size)
    (hlsz : 1 ≤ lf.size)
    (hlk2 : heapFindIdx lf.heap k2 = none) :
    (lfuRemove lf k).2.2 = [] ∧
    (lruRemove lc k).2.2 = [(k, v)] ∧
    (fifoRemove fc k).2.2 = [(k, v)] ∧
    (lruAdd lc k2 v).2.2.length = 1 ∧
    (fifoAdd fc k2 v).2.2.length = 1 ∧
    (lfuAdd lf k2 v).2.2.length = 1 := by
  refine ⟨?_, ?_, ?_, ?_, ?_, ?_⟩
  · unfold lfuRemove
    match h : heapFindIdx lf.heap k with
    | some i => rfl
    | none => rfl
  · unfold lruRemove
    rw [hl]
  · unfold fifoRemove
    rw [hf]
  · unfold lruAdd
    rw [if_neg (by simp [hk2])]
    have hlen2 : ((k2, v) :: lc.list).length > lc.size := by
      unfold lruLen at hfull
      simp only [List.length_cons]
      omega
    rw [if_pos hlen2]
    dsimp only
    have hne : ((k2, v) :: lc.list).getLast?.isSome := by
      simp
    match hgl : ((k2, v) :: lc.list).getLast? with
    | some p => rfl
    | none =>
      rw [hgl] at hne
      cases hne
  · unfold fifoAdd
    rw [if_neg (by simp [hfk2])]
    have hlen3 : (fc.list ++ [(k2, v)]).length > fc.size := by
      unfold fifoLen at hffull
      simp only [List.length_append, List.length_cons, List.length_nil]
      omega
    rw [if_pos hlen3]
    dsimp only
    cases hfc : fc.list with
    | nil => rfl
    | cons a t => rfl
  · obtain ⟨r, hr⟩ : ∃ r, lf.heap.get? 0 = some r := by
      cases hq : lf.heap.get? 0 with
      | some r => exact ⟨r, rfl⟩
      | none =>
        rw [List.get?_eq_none] at hq
        omega
    have hpop := heapPop_root hr
    unfold lfuAdd
    rw [hlk2]
    dsimp only
    rw [if_pos hlcap]
    match hx : heapPop lf.heap with
    | (popped, rest) =>
      rw [hx] at hpop
      dsimp only at hpop ⊢
      rw [hpop]
      rfl

/-- Witness for `c3_callback_discipline` at concrete caches: the LFU cache
is at capacity (two entries on a size-2 cache) so `Add` of the fresh key 3
fires the callback exactly once. -/
theorem c3_callback_discipline_witness :
    (lfuRemove ((lfuAdd (lfuAdd (lfuNew 2 : LFUCache Nat Nat) 1 10).1
      2 20).1) 1).2.2 = [] ∧
    (lruRemove (⟨1, [(1, 10)]⟩ : LRUCache Nat Nat) 1).2.2 = [(1, 10)] ∧
    (fifoRemove (⟨1, [(1, 10)]⟩ : FIFOCache Nat Nat) 1).2.2 = [(1, 10)] ∧
    (lruAdd (⟨1, [(1, 10)]⟩ : LRUCache Nat Nat) 3 30).2.2.length = 1 ∧
    (fifoAdd (⟨1, [(1, 10)]⟩ : FIFOCache Nat Nat) 3 30).2.2.length = 1 ∧
    (lfuAdd ((lfuAdd (lfuAdd (lfuNew 2 : LFUCache Nat Nat) 1 10).1
      2 20).1) 3 30).2.2.length = 1 :=
  c3_callback_discipline
    ((lfuAdd (lfuAdd (lfuNew 2 : LFUCache Nat Nat) 1 10).1 2 20).1)
    (⟨1, [(1, 10)]⟩ : LRUCache Nat Nat) (⟨1, [(1, 10)]⟩ : FIFOCache Nat Nat)
    1 3 10 (by decide) (by decide) (by decide) (by decide) (by decide)
    (by decide) (by decide) (by decide) (by decide)

end FastCache
